import Mathlib

/-!
Verification of the ectar erasure-coded archive pipeline.

This file embeds the claim-relevant parts of the Rust sources as Lean
definitions and proves (or refutes) the specified properties about them:

* src/erasure/zfec_header.rs : bit-packed zfec shard header encode/decode;
* src/erasure/encoder.rs and src/chunking/streaming_erasure_chunker.rs :
  data-shard construction, shard-size/padding arithmetic, and the streaming
  chunk writer state machine (modelled in its no-compression mode, where the
  per-chunk buffer holds the raw bytes; the compression mode differs only in
  what the buffered bytes are);
* src/erasure/decoder.rs : chunk reconstruction glue around the external
  Reed-Solomon crate (the crate itself is taken as a parameter together with
  a correctness hypothesis where a claim needs it) and shard filename parsing;
* src/archive/create.rs : builder parameter validation;
* src/archive/extract.rs : the per-chunk reconstruction loops and their
  partial-mode error policy for both the indexed and the index-less path.

Machine integers are modelled as Nat.  The Rust fields involved are u8/u32;
every theorem constrains them to ranges in which the Rust arithmetic neither
wraps nor panics, and the byte-level truncations that the Rust casts perform
are kept explicit as `% 256`, `% 2 ^ 16`, `% 2 ^ 32`.  Strings are modelled
as their UTF-8 byte lists (List Nat).  File I/O is dropped: functions return
the bytes they would write.  Error values mirror EctarError from
src/error.rs with their message strings omitted, plus a `panicked` marker
for Rust panics and for the non-termination of the write loop.
-/

namespace Ectar

/-- Error kinds mirroring EctarError (src/error.rs); message payloads are
omitted, and `panicked` stands for a Rust panic or a diverging loop. -/
inductive EctarErr
  | io
  | invalidParameters
  | invalidHeader
  | insufficientShards (chunk needed available : Nat)
  | erasureCoding
  | invalidShardFile
  | decompression
  | panicked
deriving DecidableEq, Repr

deriving instance DecidableEq for Except

/-! ## Zfec header (src/erasure/zfec_header.rs) -/

/-- The halving loop inside log2_ceil: count how many times the value can be
halved before reaching 0 (the number of bits of the value). -/
def bitsCount (v : Nat) : Nat :=
  if v = 0 then 0 else bitsCount (v / 2) + 1
termination_by v
decreasing_by exact Nat.div_lt_self (Nat.pos_of_ne_zero (by assumption)) (by norm_num)

/-- log2_ceil from zfec_header.rs: the number of bits needed to represent
values 0..n-1; 0 for n ≤ 1. -/
def log2_ceil (n : Nat) : Nat :=
  if n ≤ 1 then 0 else bitsCount (n - 1)

/-- ZfecHeader struct: k, m, sharenum are u8 in the source, padlen is usize. -/
structure ZfecHeader where
  k : Nat
  m : Nat
  sharenum : Nat
  padlen : Nat
deriving DecidableEq, Repr

/-- Big-endian bytes of a u16 value (u16::to_be_bytes). -/
def toBytesBE2 (v : Nat) : List Nat :=
  [(v >>> 8) % 256, v % 256]

/-- The low three big-endian bytes of a u32 value (u32::to_be_bytes with the
first byte skipped, as the 3-byte arm of encode does). -/
def toBytesBE3 (v : Nat) : List Nat :=
  [(v >>> 16) % 256, (v >>> 8) % 256, v % 256]

/-- Big-endian bytes of a u32 value (u32::to_be_bytes). -/
def toBytesBE4 (v : Nat) : List Nat :=
  [(v >>> 24) % 256, (v >>> 16) % 256, (v >>> 8) % 256, v % 256]

/-- Big-endian byte-list to number, as the u16/u32::from_be_bytes calls in
decode build their value (each entry is a u8, hence the `% 256`). -/
def fromBytesBE (bytes : List Nat) : Nat :=
  bytes.foldl (fun acc b => acc * 256 + b % 256) 0

/-- ZfecHeader::encode.  Returns none where the source hits the
`unreachable!` panic (header size outside 2..4).  The u16/u32 truncations of
the serialization step are the explicit mods. -/
def ZfecHeader.encode (h : ZfecHeader) : Option (List Nat) :=
  let k_bits := log2_ceil h.m
  let pad_bits := log2_ceil h.k
  let sharenum_bits := log2_ceil h.m
  let total_bits := 8 + k_bits + pad_bits + sharenum_bits
  let num_bytes := (total_bits + 7) / 8
  let shift1 := total_bits - 8
  let value1 := (h.m - 1) <<< shift1
  let shift2 := shift1 - k_bits
  let value2 := value1 ||| ((h.k - 1) <<< shift2)
  let shift3 := shift2 - pad_bits
  let value3 := value2 ||| (h.padlen <<< shift3)
  let value := value3 ||| h.sharenum
  match num_bytes with
  | 2 => some (toBytesBE2 (value % 2 ^ 16))
  | 3 => some (toBytesBE3 ((value <<< (3 * 8 - total_bits)) % 2 ^ 32))
  | 4 => some (toBytesBE4 (value % 2 ^ 32))
  | _ => none

/-- ZfecHeader::decode.  The checked_add(1) overflow tests become the
`= 255` comparisons; the `as u8` casts are the `% 256`. -/
def ZfecHeader.decode (bytes : List Nat) : Except EctarErr ZfecHeader :=
  if bytes.length < 2 || bytes.length > 4 then .error .invalidHeader
  else
    let value := fromBytesBE bytes
    let total_bytes := bytes.length
    let m_minus_1 := (value >>> (total_bytes * 8 - 8)) &&& 255
    if m_minus_1 = 255 then .error .invalidHeader
    else
      let m := m_minus_1 + 1
      if m = 0 then .error .invalidHeader
      else
        let k_bits := log2_ceil m
        let sharenum_bits := log2_ceil m
        let k_shift := total_bytes * 8 - 8 - k_bits
        let k_mask := (1 <<< k_bits) - 1
        let k_minus_1 := ((value >>> k_shift) &&& k_mask) % 256
        if k_minus_1 = 255 then .error .invalidHeader
        else
          let k := k_minus_1 + 1
          if k = 0 ∨ m < k then .error .invalidHeader
          else
            let pad_bits := log2_ceil k
            let expected_total_bits := 8 + k_bits + pad_bits + sharenum_bits
            let expected_bytes := (expected_total_bits + 7) / 8
            if expected_bytes ≠ bytes.length then .error .invalidHeader
            else
              let padding_bits := total_bytes * 8 - expected_total_bits
              let padlen_shift := sharenum_bits + padding_bits
              let pad_mask := (1 <<< pad_bits) - 1
              let padlen := (value >>> padlen_shift) &&& pad_mask
              let sharenum_mask := (1 <<< sharenum_bits) - 1
              let sharenum := ((value >>> padding_bits) &&& sharenum_mask) % 256
              if m ≤ sharenum then .error .invalidHeader
              else .ok ⟨k, m, sharenum, padlen⟩

/-- Total bit count of a header for parameters k, m, in the source's order
8 + k_bits + pad_bits + sharenum_bits. -/
def totalBits (k m : Nat) : Nat :=
  8 + log2_ceil m + log2_ceil k + log2_ceil m

/-- The packed header value: fields m-1, k-1, padlen, sharenum laid out from
the most significant end. -/
def packedValue (k m sharenum padlen : Nat) : Nat :=
  (m - 1) * 2 ^ (log2_ceil m + log2_ceil k + log2_ceil m) +
    (k - 1) * 2 ^ (log2_ceil k + log2_ceil m) +
    padlen * 2 ^ (log2_ceil m) + sharenum

/-! ## Data-shard construction and the chunk writer
(src/chunking/streaming_erasure_chunker.rs) -/

/-- The slices produced by chunk_data.chunks(size).  For size = 0 the Rust
iterator constructor panics; callers in the source only reach it with a
positive size, and this model returns [] in that case. -/
def chunksOf (size : Nat) (data : List Nat) : List (List Nat) :=
  if _h : size = 0 then []
  else
    match data with
    | [] => []
    | x :: xs => (x :: xs).take size :: chunksOf size ((x :: xs).drop size)
termination_by data.length
decreasing_by
  simp only [List.length_drop, List.length_cons]
  omega

/-- The copy loop writing each slice over the zero-initialized rows:
rows[i][..piece.len()] = piece, for consecutive i.  If there are more pieces
than rows the source would panic on an out-of-bounds index; the model stops. -/
def copyPieces : List (List Nat) → List (List Nat) → List (List Nat)
  | rows, [] => rows
  | [], _ :: _ => []
  | r :: rs, piece :: rest => (piece ++ r.drop piece.length) :: copyPieces rs rest

/-- Result of encode_and_write_shards: the computed shard size and padding
and the m shard payload rows that are written out. -/
structure EncodedChunk where
  shard_size : Nat
  padlen : Nat
  rows : List (List Nat)
deriving DecidableEq, Repr

/-- StreamingErasureChunkingWriter::encode_and_write_shards.  The external
Reed-Solomon encoder is the parityFn parameter: it fills the parity rows
from the k data rows and leaves the data rows unchanged (the code is
systematic).  ReedSolomon::new's parameter checks and the crate's rejection
of empty shards are the erasureCoding errors; the division-by-zero panic for
data_shards = 0 is `panicked`. -/
def encodeAndWriteShards (data_shards parity_shards : Nat)
    (parityFn : List (List Nat) → List (List Nat)) (chunk_data : List Nat) :
    Except EctarErr EncodedChunk :=
  if data_shards = 0 then .error .panicked
  else
    let shard_size := (chunk_data.length + data_shards - 1) / data_shards
    let total_data_bytes := data_shards * shard_size
    let padlen := total_data_bytes - chunk_data.length
    if data_shards < 1 ∨ parity_shards < 1 ∨ data_shards + parity_shards > 256 then
      .error .erasureCoding
    else
      let rows0 := List.replicate (data_shards + parity_shards) (List.replicate shard_size 0)
      let rows1 := copyPieces rows0 (chunksOf shard_size chunk_data)
      if shard_size = 0 then .error .erasureCoding
      else
        let dataRows := rows1.take data_shards
        let rows := dataRows ++ parityFn dataRows
        if data_shards > 255 ∨ data_shards + parity_shards > 255 then
          .error .invalidParameters
        else .ok ⟨shard_size, padlen, rows⟩

/-- Per-chunk metadata recorded by the writer (ChunkInfo). -/
structure ChunkInfoE where
  chunk_number : Nat
  compressed_size : Nat
  uncompressed_size : Nat
  shard_size : Nat
deriving DecidableEq, Repr

/-- StreamingErasureChunkingWriter state, no-compression mode: the
current_buffer holds the raw chunk bytes (current_encoder is always None). -/
structure WriterState where
  chunk_size : Nat
  data_shards : Nat
  parity_shards : Nat
  current_chunk : Nat
  bytes_in_current_chunk : Nat
  current_buffer : Option (List Nat)
  chunks_created : List ChunkInfoE
deriving DecidableEq, Repr

/-- StreamingErasureChunkingWriter::new (with no_compression(true)). -/
def newWriter (chunk_size data_shards parity_shards : Nat) : WriterState :=
  ⟨chunk_size, data_shards, parity_shards, 0, 0, none, []⟩

/-- finish_current_chunk: take the buffer, skip empty chunks, otherwise
erasure-encode it, record its ChunkInfo and advance the chunk number.  In
no-compression mode the uncompressed size is the buffer length. -/
def finishCurrentChunk (parityFn : List (List Nat) → List (List Nat))
    (st : WriterState) : Except EctarErr WriterState :=
  match st.current_buffer with
  | none => .ok st
  | some buffer =>
    let st1 := { st with current_buffer := none }
    if buffer.length = 0 then .ok st1
    else
      match encodeAndWriteShards st.data_shards st.parity_shards parityFn buffer with
      | .error e => .error e
      | .ok enc =>
        .ok { st1 with
          chunks_created := st1.chunks_created ++
            [⟨st1.current_chunk, buffer.length, buffer.length, enc.shard_size⟩],
          current_chunk := st1.current_chunk + 1 }

/-- start_new_chunk: finish the open chunk if any (first chunk starts at 1),
reset the byte count and open a fresh buffer. -/
def startNewChunk (parityFn : List (List Nat) → List (List Nat))
    (st : WriterState) : Except EctarErr WriterState :=
  match (if st.current_buffer.isSome then finishCurrentChunk parityFn st
         else .ok { st with current_chunk := 1 }) with
  | .error e => .error e
  | .ok st1 => .ok { st1 with bytes_in_current_chunk := 0, current_buffer := some [] }

/-- The while loop of Write::write, with fuel.  Running out of fuel models
the loop never terminating (which the Rust code does when chunk_size = 0);
the fuel used by `write` below is provably sufficient when chunk_size ≥ 1. -/
def writeAux (parityFn : List (List Nat) → List (List Nat)) :
    Nat → WriterState → List Nat → Except EctarErr WriterState
  | 0, _, _ => .error .panicked
  | _ + 1, st, [] => .ok st
  | fuel + 1, st, buf@(_ :: _) =>
    let remaining_in_chunk := st.chunk_size - st.bytes_in_current_chunk
    let to_write := min remaining_in_chunk buf.length
    if to_write = 0 then
      match startNewChunk parityFn st with
      | .error e => .error e
      | .ok st1 => writeAux parityFn fuel st1 buf
    else
      match st.current_buffer with
      | none => .error .io
      | some buffer =>
        writeAux parityFn fuel
          { st with current_buffer := some (buffer ++ buf.take to_write),
                    bytes_in_current_chunk := st.bytes_in_current_chunk + to_write }
          (buf.drop to_write)

/-- Write::write for the chunking writer: empty writes return immediately,
the first write opens the first chunk, then the loop runs. -/
def write (parityFn : List (List Nat) → List (List Nat)) (st : WriterState)
    (buf : List Nat) : Except EctarErr WriterState :=
  if buf = [] then .ok st
  else
    match (if st.current_buffer.isNone then startNewChunk parityFn st else .ok st) with
    | .error e => .error e
    | .ok st1 => writeAux parityFn (2 * buf.length + 1) st1 buf

/-- current_chunk_number: 1 before any chunk was started, else the stored
current chunk counter. -/
def currentChunkNumber (st : WriterState) : Nat :=
  if st.current_chunk = 0 then 1 else st.current_chunk

/-- StreamingErasureChunkingWriter::finish: drain the last chunk if it holds
data, return the chunk metadata list. -/
def finishWriter (parityFn : List (List Nat) → List (List Nat))
    (st : WriterState) : Except EctarErr (List ChunkInfoE) :=
  if st.current_buffer.isSome ∧ 0 < st.bytes_in_current_chunk then
    match finishCurrentChunk parityFn st with
    | .error e => .error e
    | .ok st1 => .ok st1.chunks_created
  else .ok st.chunks_created

/-! ## Chunk reconstruction (src/erasure/decoder.rs) -/

/-- ShardData.  The source struct in decoder.rs has the first three fields;
the `header` field is modelled from the spec (section 4.7 describes ShardData
as carrying the optional probed zfec header, and extract.rs reads it). -/
structure ShardData where
  chunk_number : Nat
  shard_number : Nat
  data : List Nat
  header : Option ZfecHeader
deriving DecidableEq, Repr

/-- The loop filling the m-slot optional shard vector: out-of-range shard
numbers are silently skipped. -/
def fillShards (total : Nat) (available : List ShardData) : List (Option (List Nat)) :=
  available.foldl
    (fun shards s =>
      if s.shard_number < total then shards.set s.shard_number (some s.data) else shards)
    (List.replicate total none)

/-- The loop concatenating the first k reconstructed data shards; none if a
data shard is still missing (or, where Rust would panic indexing past the
vector, when the vector is shorter than k). -/
def collectData : Nat → List (Option (List Nat)) → Option (List Nat)
  | 0, _ => some []
  | _ + 1, [] => none
  | _ + 1, none :: _ => none
  | k + 1, some s :: rest => (collectData k rest).map (s ++ ·)

/-- decode_chunk.  The external ReedSolomon reconstruction is the rec
parameter (none models the crate returning an error, which the source maps
to ErasureCoding); the write of the reconstructed bytes to the output file
is dropped and the bytes are returned instead. -/
def decode_chunk (rec : List (Option (List Nat)) → Option (List (Option (List Nat))))
    (available_shards : List ShardData) (data_shards parity_shards : Nat)
    (expected_size : Option Nat) : Except EctarErr (List Nat) :=
  let total_shards := data_shards + parity_shards
  if available_shards.length < data_shards then
    .error (.insufficientShards
      (((available_shards.head?).map (·.chunk_number)).getD 0)
      data_shards available_shards.length)
  else
    match available_shards.head? with
    | none => .error .erasureCoding
    | some _first =>
      if data_shards < 1 ∨ parity_shards < 1 ∨ total_shards > 256 then .error .erasureCoding
      else
        match rec (fillShards total_shards available_shards) with
        | none => .error .erasureCoding
        | some shards =>
          match collectData data_shards shards with
          | none => .error .erasureCoding
          | some reconstructed =>
            match expected_size with
            | some expected =>
              if expected < reconstructed.length then .ok (reconstructed.take expected)
              else .ok reconstructed
            | none => .ok reconstructed

/-- A reconstructor used to instantiate concrete scenarios: when no shard is
missing it returns the vector unchanged, which is exactly the external
crate's behavior in that case.  Concrete scenarios only ever consult it with
every shard present (or not at all), so they are realizable with the real
crate regardless of the fallback branch. -/
def trivialReconstruct (shards : List (Option (List Nat))) :
    Option (List (Option (List Nat))) :=
  if shards.all Option.isSome then some shards else none

/-- Correctness of a Reed-Solomon reconstructor for a given codeword (the m
rows emitted for a chunk) and threshold k: on any same-length partial vector
that agrees with the codeword and has at least k entries present, it returns
the full codeword.  This is the documented contract of the external crate. -/
def ReconstructsCodeword
    (rec : List (Option (List Nat)) → Option (List (Option (List Nat))))
    (rows : List (List Nat)) (k : Nat) : Prop :=
  ∀ sh : List (Option (List Nat)),
    sh.length = rows.length →
    k ≤ (sh.filterMap id).length →
    (∀ (j : Nat) (v : List Nat), sh[j]? = some (some v) → rows[j]? = some v) →
    rec sh = some (rows.map some)

/-! ## Shard filename format and parse
(src/erasure/encoder.rs format_shard_path, src/erasure/decoder.rs
parse_shard_filename).  Strings are UTF-8 byte lists; the bytes used are
46 for the dot, 99 for c, 115 for s, 43 for the plus sign and 48..57 for
the decimal digits. -/

/-- str::find for a substring: the first index at which pat starts in s. -/
def findSub (pat : List Nat) : List Nat → Option Nat
  | [] => if pat.isPrefixOf ([] : List Nat) then some 0 else none
  | s@(_ :: rest) =>
    if pat.isPrefixOf s then some 0
    else (findSub pat rest).map (· + 1)

/-- str::rfind for a substring: the last index at which pat starts in s. -/
def rfindSub (pat : List Nat) : List Nat → Option Nat
  | [] => if pat.isPrefixOf ([] : List Nat) then some 0 else none
  | s@(_ :: rest) =>
    match rfindSub pat rest with
    | some j => some (j + 1)
    | none => if pat.isPrefixOf s then some 0 else none

/-- str::parse::<usize>: an optional leading plus sign followed by at least
one decimal digit (the u64 overflow rejection of the Rust parser is not
modelled; all parsed fields in scope are small). -/
def parseUsize (s : List Nat) : Option Nat :=
  let t := match s with
    | b :: rest => if b = 43 then rest else s
    | [] => s
  if t = [] then none
  else if t.all (fun b => 48 ≤ b ∧ b ≤ 57) then
    some (t.foldl (fun acc b => acc * 10 + (b - 48)) 0)
  else none

/-- Decimal digit bytes of n, most significant first, with structural fuel
(any fuel above n is enough). -/
def natDigitBytesAux : Nat → Nat → List Nat
  | 0, _ => []
  | fuel + 1, n =>
    if n < 10 then [48 + n]
    else natDigitBytesAux fuel (n / 10) ++ [48 + n % 10]

/-- Decimal digit bytes of n, most significant first. -/
def natDigitBytes (n : Nat) : List Nat :=
  natDigitBytesAux (n + 1) n

/-- Zero-padding to a field width, as the {:03} / {:02} format specifiers
produce. -/
def zeroPad (width : Nat) (ds : List Nat) : List Nat :=
  List.replicate (width - ds.length) 48 ++ ds

/-- format_shard_path: base ++ ".c" ++ chunk zero-padded to 3 digits ++
".s" ++ shard zero-padded to 2 digits. -/
def formatShardPath (base : List Nat) (chunk shard : Nat) : List Nat :=
  base ++ [46, 99] ++ zeroPad 3 (natDigitBytes chunk) ++ [46, 115] ++
    zeroPad 2 (natDigitBytes shard)

/-- parse_shard_filename: find the first ".c" and the last ".s", require the
".s" to come strictly later, and parse the substring between them and the
suffix after the ".s" as unsigned integers. -/
def parseShardFilename (filename : List Nat) : Except EctarErr (Nat × Nat) :=
  match findSub [46, 99] filename with
  | none => .error .invalidShardFile
  | some c_pos =>
    match rfindSub [46, 115] filename with
    | none => .error .invalidShardFile
    | some s_pos =>
      if s_pos ≤ c_pos then .error .invalidShardFile
      else
        let chunk_str := (filename.drop (c_pos + 2)).take (s_pos - (c_pos + 2))
        match parseUsize chunk_str with
        | none => .error .invalidShardFile
        | some chunk_number =>
          let shard_str := filename.drop (s_pos + 2)
          match parseUsize shard_str with
          | none => .error .invalidShardFile
          | some shard_number => .ok (chunk_number, shard_number)

/-! ## Builder parameter validation (src/archive/create.rs) -/

/-- The ArchiveBuilder fields that validate() reads. -/
structure BuilderParams where
  data_shards : Nat
  parity_shards : Nat
  compression_level : Int
  no_compression : Bool
deriving DecidableEq, Repr

/-- compression::zstd::validate_compression_level: level must lie in 1..22. -/
def validateCompressionLevel (level : Int) : Except EctarErr Int :=
  if level < 1 ∨ 22 < level then .error .invalidParameters else .ok level

/-- ArchiveBuilder::validate. -/
def builderValidate (b : BuilderParams) : Except EctarErr Unit :=
  if b.data_shards < 1 then .error .invalidParameters
  else if b.parity_shards < 1 then .error .invalidParameters
  else if 256 < b.data_shards + b.parity_shards then .error .invalidParameters
  else if !b.no_compression then
    match validateCompressionLevel b.compression_level with
    | .error e => .error e
    | .ok _ => .ok ()
  else .ok ()

/-! ## Extraction error policy (src/archive/extract.rs).  The per-chunk
reconstruction loops of extract_with_index and extract_from_shards_only are
embedded together with the post-loop partial/abort decisions; the downstream
tar unpack stage (extract_all_chunks) is outside the modelled claims, so the
files_extracted count of the returned metadata is fixed at 0. -/

/-- ExtractionMetadata. -/
structure ExtractionMetadata where
  chunks_total : Nat
  chunks_recovered : Nat
  chunks_failed : Nat
  files_extracted : Nat
deriving DecidableEq, Repr

/-- Association-list lookup standing for HashMap::get. -/
def lookupChunk (chunk : Nat) : List (Nat × List ShardData) → Option (List ShardData)
  | [] => none
  | (c, shards) :: rest => if c = chunk then some shards else lookupChunk chunk rest

/-- The reconstruction loop of extract_with_index: for each index chunk,
look its shards up, mark the chunk failed if they are missing, too few, or
decode_chunk fails, otherwise count it recovered. -/
def chunkLoopIndexed (rec : List (Option (List Nat)) → Option (List (Option (List Nat))))
    (data_shards parity_shards : Nat) (shardsByChunk : List (Nat × List ShardData))
    (indexChunks : List (Nat × Nat)) : Nat × List Nat :=
  indexChunks.foldl
    (fun acc chunkInfo =>
      match lookupChunk chunkInfo.1 shardsByChunk with
      | some shards =>
        if shards.length < data_shards then (acc.1, acc.2 ++ [chunkInfo.1])
        else
          match decode_chunk rec shards data_shards parity_shards (some chunkInfo.2) with
          | .ok _ => (acc.1 + 1, acc.2)
          | .error _ => (acc.1, acc.2 ++ [chunkInfo.1])
      | none => (acc.1, acc.2 ++ [chunkInfo.1]))
    (0, [])

/-- extract_with_index, from the reconstruction loop to the post-loop
partial/abort policy.  indexChunks carries (chunk_number, compressed_size)
from the index. -/
def extractWithIndex (rec : List (Option (List Nat)) → Option (List (Option (List Nat))))
    (pmode : Bool) (data_shards parity_shards : Nat)
    (shardsByChunk : List (Nat × List ShardData)) (indexChunks : List (Nat × Nat)) :
    Except EctarErr ExtractionMetadata :=
  let res := chunkLoopIndexed rec data_shards parity_shards shardsByChunk indexChunks
  if res.1 = 0 then
    if pmode then .ok ⟨indexChunks.length, 0, res.2.length, 0⟩
    else .error .erasureCoding
  else if res.2 ≠ [] ∧ !pmode then .error .erasureCoding
  else .ok ⟨indexChunks.length, res.1, res.2.length, 0⟩

/-- The reconstruction loop of extract_from_shards_only: the expected size
comes from the first shard's header padlen when present. -/
def chunkLoopHeaderless (rec : List (Option (List Nat)) → Option (List (Option (List Nat))))
    (data_shards parity_shards : Nat) (shardsByChunk : List (Nat × List ShardData))
    (chunkNumbers : List Nat) : Nat × List Nat :=
  chunkNumbers.foldl
    (fun acc chunk_num =>
      match lookupChunk chunk_num shardsByChunk with
      | some shards =>
        if shards.length < data_shards then (acc.1, acc.2 ++ [chunk_num])
        else
          let compressed_size :=
            match shards.head? with
            | some s0 =>
              match s0.header with
              | some h => some (s0.data.length * data_shards - h.padlen)
              | none => none
            | none => none
          match decode_chunk rec shards data_shards parity_shards compressed_size with
          | .ok _ => (acc.1 + 1, acc.2)
          | .error _ => (acc.1, acc.2 ++ [chunk_num])
      | none => (acc.1, acc.2 ++ [chunk_num]))
    (0, [])

/-- extract_from_shards_only: read (k, m) from the first discovered shard's
zfec header, run the reconstruction loop over the discovered chunk numbers,
and fail only when no chunk at all was recovered.  The source sorts the
chunk numbers before the loop; the fold's counts do not depend on the
order, and the model processes the association list in its given order. -/
def extractFromShardsOnly
    (rec : List (Option (List Nat)) → Option (List (Option (List Nat))))
    (pmode : Bool) (shardsByChunk : List (Nat × List ShardData)) :
    Except EctarErr ExtractionMetadata :=
  match shardsByChunk with
  | [] => .error .erasureCoding
  | (_, firstShards) :: _ =>
    match firstShards.head? with
    | none => .error .erasureCoding
    | some first_shard =>
      match first_shard.header with
      | none => .error .invalidHeader
      | some h =>
        let data_shards := h.k
        let parity_shards := h.m - h.k
        let res := chunkLoopHeaderless rec data_shards parity_shards shardsByChunk
          (shardsByChunk.map Prod.fst)
        if res.1 = 0 then .error .erasureCoding
        else
          let _ := pmode
          .ok ⟨shardsByChunk.length, res.1, res.2.length, 0⟩

/-! ## Helper lemmas -/

theorem copyPieces_length : ∀ (rows pieces : List (List Nat)),
    (copyPieces rows pieces).length = rows.length
  | rows, [] => by simp [copyPieces]
  | [], _ :: _ => by simp [copyPieces]
  | r :: rs, piece :: rest => by
    simp [copyPieces, copyPieces_length rs rest]

theorem chunksOf_nil (s : Nat) : chunksOf s [] = [] := by
  rw [chunksOf]
  split <;> rfl

theorem chunksOf_cons (s : Nat) (hs : s ≠ 0) (x : Nat) (xs : List Nat) :
    chunksOf s (x :: xs) = (x :: xs).take s :: chunksOf s ((x :: xs).drop s) := by
  rw [chunksOf, dif_neg hs]

theorem length_chunksOf_le (s : Nat) (hs : 0 < s) :
    ∀ (m : Nat) (data : List Nat), data.length ≤ m * s → (chunksOf s data).length ≤ m := by
  intro m
  induction m with
  | zero =>
    intro data hlen
    have : data = [] := List.length_eq_zero.mp (by omega)
    simp [this, chunksOf_nil]
  | succ m ih =>
    intro data hlen
    match data with
    | [] => simp [chunksOf_nil]
    | x :: xs =>
      rw [chunksOf_cons s (by omega) x xs]
      simp only [List.length_cons]
      have hd : ((x :: xs).drop s).length ≤ m * s := by
        simp only [List.length_drop, List.length_cons]
        have : (x :: xs).length ≤ (m + 1) * s := hlen
        simp only [List.length_cons] at this
        have hms : (m + 1) * s = m * s + s := by ring
        omega
      have := ih _ hd
      omega

theorem flatten_replicate_zero_rows (n s : Nat) :
    (List.replicate n (List.replicate s (0 : Nat))).flatten = List.replicate (n * s) 0 := by
  induction n with
  | zero => simp
  | succ n ih =>
    rw [List.replicate_succ, List.flatten_cons, ih]
    rw [show (n + 1) * s = s + n * s by ring, List.replicate_add]

theorem flatten_copyPieces_replicate (s : Nat) (hs : 0 < s) :
    ∀ (m : Nat) (data : List Nat), data.length ≤ m * s →
      (copyPieces (List.replicate m (List.replicate s 0)) (chunksOf s data)).flatten
        = data ++ List.replicate (m * s - data.length) 0 := by
  intro m
  induction m with
  | zero =>
    intro data hlen
    have : data = [] := List.length_eq_zero.mp (by omega)
    simp [this, chunksOf_nil, copyPieces]
  | succ m ih =>
    intro data hlen
    match data with
    | [] =>
      simp [chunksOf_nil, copyPieces, flatten_replicate_zero_rows]
    | x :: xs =>
      rw [chunksOf_cons s (by omega) x xs, List.replicate_succ]
      rw [show copyPieces (List.replicate s 0 :: List.replicate m (List.replicate s 0))
            ((x :: xs).take s :: chunksOf s ((x :: xs).drop s))
          = ((x :: xs).take s ++ (List.replicate s 0).drop ((x :: xs).take s).length)
            :: copyPieces (List.replicate m (List.replicate s 0)) (chunksOf s ((x :: xs).drop s))
        from rfl]
      rw [List.flatten_cons]
      have hd : ((x :: xs).drop s).length ≤ m * s := by
        simp only [List.length_drop, List.length_cons]
        have : (x :: xs).length ≤ (m + 1) * s := hlen
        simp only [List.length_cons] at this
        have hms : (m + 1) * s = m * s + s := by ring
        omega
      rw [ih _ hd]
      simp only [List.length_take, List.length_cons, List.drop_replicate, List.length_drop]
      have hms : (m + 1) * s = m * s + s := by ring
      have hlen1 : (x :: xs).length = xs.length + 1 := rfl
      have hlen2 : (List.drop s (x :: xs)).length = xs.length + 1 - s := by
        simp [List.length_drop]
      rcases Nat.le_total s (xs.length + 1) with hcase | hcase
      · -- the slice is full: take s has length s, no zero padding on this row
        have hmin : min s (xs.length + 1) = s := by omega
        rw [hmin, Nat.sub_self, List.replicate_zero, List.append_nil]
        rw [← List.append_assoc, List.take_append_drop]
        rw [show m * s - (xs.length + 1 - s) = (m + 1) * s - (xs.length + 1) by omega]
      · -- the final short slice: the row tail stays zero
        have hmin : min s (xs.length + 1) = xs.length + 1 := by omega
        have htake : (x :: xs).take s = x :: xs := by
          apply List.take_of_length_le
          simpa using hcase
        have hdrop : (x :: xs).drop s = [] := by
          apply List.drop_of_length_le
          simpa using hcase
        rw [hmin, htake, hdrop]
        simp only [List.length_nil, Nat.sub_zero, List.nil_append, List.length_cons]
        rw [List.append_assoc, ← List.replicate_add]
        congr 2
        omega

theorem take_copyPieces : ∀ (pieces : List (List Nat)) (k : Nat) (rows : List (List Nat)),
    pieces.length ≤ k → (copyPieces rows pieces).take k = copyPieces (rows.take k) pieces
  | [], k, rows, _ => by simp [copyPieces]
  | p :: ps, 0, rows, h => by simp at h
  | p :: ps, k + 1, [], h => by simp [copyPieces]
  | p :: ps, k + 1, r :: rs, h => by
    simp only [copyPieces, List.take_succ_cons]
    rw [take_copyPieces ps k rs (by simpa using h)]

theorem le_mul_ceil_div {L k : Nat} (hk : 0 < k) : L ≤ k * ((L + k - 1) / k) := by
  have h1 := Nat.div_add_mod (L + k - 1) k
  have h2 : (L + k - 1) % k < k := Nat.mod_lt _ hk
  omega

theorem mul_ceil_div_lt {L k : Nat} (hk : 0 < k) (hL : 0 < L) :
    k * ((L + k - 1) / k) < L + k := by
  have h1 : (L + k - 1) / k * k ≤ L + k - 1 := Nat.div_mul_le_self _ _
  have h2 : k * ((L + k - 1) / k) = (L + k - 1) / k * k := Nat.mul_comm _ _
  omega

/-- The data rows that encode_and_write_shards builds for a chunk: the first
data_shards rows of the copy loop's result. -/
theorem encodeAndWriteShards_ok (k p : Nat)
    (parityFn : List (List Nat) → List (List Nat)) (data : List Nat)
    (hk : 1 ≤ k) (hp : 1 ≤ p) (hkp : k + p ≤ 255) (hdata : data ≠ []) :
    encodeAndWriteShards k p parityFn data =
      .ok ⟨(data.length + k - 1) / k,
           k * ((data.length + k - 1) / k) - data.length,
           (copyPieces (List.replicate k (List.replicate ((data.length + k - 1) / k) 0))
              (chunksOf ((data.length + k - 1) / k) data))
             ++ parityFn (copyPieces (List.replicate k (List.replicate ((data.length + k - 1) / k) 0))
              (chunksOf ((data.length + k - 1) / k) data))⟩ := by
  have hL : 0 < data.length := List.length_pos.mpr hdata
  have hss : 0 < (data.length + k - 1) / k := Nat.div_pos (by omega) (by omega)
  have hpieces : (chunksOf ((data.length + k - 1) / k) data).length ≤ k :=
    length_chunksOf_le _ hss k data (le_mul_ceil_div (by omega))
  have hrows : (copyPieces
        (List.replicate (k + p) (List.replicate ((data.length + k - 1) / k) 0))
        (chunksOf ((data.length + k - 1) / k) data)).take k
      = copyPieces (List.replicate k (List.replicate ((data.length + k - 1) / k) 0))
        (chunksOf ((data.length + k - 1) / k) data) := by
    rw [take_copyPieces _ _ _ hpieces, List.take_replicate]
    congr 2
    omega
  simp only [encodeAndWriteShards]
  rw [if_neg (by omega)]
  rw [if_neg (by omega)]
  rw [if_neg (by omega)]
  rw [if_neg (by omega)]
  rw [hrows]

/-! ## C4 -/

/-- C4: for every emitted chunk with nonempty payload and k ≥ 1 the chunker
computes shard_size = ceil(compressed_size / k) and padlen = k * shard_size -
compressed_size, and padlen < k. -/
theorem c4_shard_size_and_padlen (k p : Nat)
    (parityFn : List (List Nat) → List (List Nat)) (data : List Nat)
    (hk : 1 ≤ k) (hp : 1 ≤ p) (hkp : k + p ≤ 255) (hdata : data ≠ []) :
    ∃ enc, encodeAndWriteShards k p parityFn data = .ok enc ∧
      enc.shard_size = data.length ⌈/⌉ k ∧
      enc.padlen = k * enc.shard_size - data.length ∧
      enc.padlen < k := by
  refine ⟨_, encodeAndWriteShards_ok k p parityFn data hk hp hkp hdata, ?_, rfl, ?_⟩
  · simp [Nat.ceilDiv_eq_add_pred_div]
  · have hL : 0 < data.length := List.length_pos.mpr hdata
    have := mul_ceil_div_lt (L := data.length) (k := k) (by omega) hL
    simp only
    omega

/-- C4 witness: a concrete instantiation (k = 4, 10 payload bytes gives
shard_size 3 and padlen 2 < 4). -/
theorem c4_shard_size_and_padlen_witness :
    ∃ enc, encodeAndWriteShards 4 2 (fun _ => [[0, 0, 0], [0, 0, 0]])
        [1, 2, 3, 4, 5, 6, 7, 8, 9, 10] = .ok enc ∧
      enc.shard_size = [1, 2, 3, 4, 5, 6, 7, 8, 9, 10].length ⌈/⌉ 4 ∧
      enc.padlen = 4 * enc.shard_size - [1, 2, 3, 4, 5, 6, 7, 8, 9, 10].length ∧
      enc.padlen < 4 :=
  c4_shard_size_and_padlen 4 2 (fun _ => [[0, 0, 0], [0, 0, 0]])
    [1, 2, 3, 4, 5, 6, 7, 8, 9, 10] (by norm_num) (by norm_num) (by norm_num) (by simp)

/-! ## C3 -/

/-- C3: concatenating the payloads of the first k (systematic data) shards
of an emitted chunk and truncating to compressed_size yields exactly the
compressed chunk buffer that was split (so decompressing it, or reading it
directly in no-compression mode, gives back the original chunk bytes). -/
theorem c3_data_shards_concat (k p : Nat)
    (parityFn : List (List Nat) → List (List Nat)) (data : List Nat)
    (hk : 1 ≤ k) (hp : 1 ≤ p) (hkp : k + p ≤ 255) (hdata : data ≠ []) :
    ∃ enc, encodeAndWriteShards k p parityFn data = .ok enc ∧
      ((enc.rows.take k).flatten).take data.length = data := by
  refine ⟨_, encodeAndWriteShards_ok k p parityFn data hk hp hkp hdata, ?_⟩
  simp only
  have hL : 0 < data.length := List.length_pos.mpr hdata
  have hss : 0 < (data.length + k - 1) / k := Nat.div_pos (by omega) (by omega)
  have hlen : (copyPieces (List.replicate k (List.replicate ((data.length + k - 1) / k) 0))
      (chunksOf ((data.length + k - 1) / k) data)).length = k := by
    rw [copyPieces_length]
    simp
  rw [List.take_append_of_le_length hlen.ge]
  rw [List.take_of_length_le hlen.le]
  rw [flatten_copyPieces_replicate _ hss k data (le_mul_ceil_div (by omega))]
  rw [List.take_append_of_le_length le_rfl]
  simp

/-- C3 witness: for k = 2, parity 1, payload [5, 6, 7] the two data shards
are [5, 6] and [7, 0]; their concatenation truncated to 3 bytes is the
payload again. -/
theorem c3_data_shards_concat_witness :
    ∃ enc, encodeAndWriteShards 2 1 (fun _ => [[0, 0]]) [5, 6, 7] = .ok enc ∧
      ((enc.rows.take 2).flatten).take 3 = [5, 6, 7] :=
  c3_data_shards_concat 2 1 (fun _ => [[0, 0]]) [5, 6, 7]
    (by norm_num) (by norm_num) (by norm_num) (by simp)

/-! ## Decoder lemmas -/

theorem fillShards_go_length (total : Nat) (l : List ShardData) :
    ∀ acc : List (Option (List Nat)),
      (l.foldl (fun shards s =>
        if s.shard_number < total then shards.set s.shard_number (some s.data) else shards)
        acc).length = acc.length := by
  induction l with
  | nil => intro acc; rfl
  | cons s rest ih =>
    intro acc
    rw [List.foldl_cons, ih]
    split <;> simp

theorem fillShards_length (total : Nat) (available : List ShardData) :
    (fillShards total available).length = total := by
  rw [fillShards, fillShards_go_length]
  simp

theorem fillShards_go_consistent (total : Nat) (rows : List (List Nat)) :
    ∀ (l : List ShardData) (acc : List (Option (List Nat))),
      (∀ s ∈ l, rows[s.shard_number]? = some s.data) →
      (∀ (j : Nat) (v : List Nat), acc[j]? = some (some v) → rows[j]? = some v) →
      ∀ (j : Nat) (v : List Nat),
        (l.foldl (fun shards s =>
          if s.shard_number < total then shards.set s.shard_number (some s.data) else shards)
          acc)[j]? = some (some v) → rows[j]? = some v := by
  intro l
  induction l with
  | nil => intro acc _ hacc; exact hacc
  | cons s rest ih =>
    intro acc hmem hacc
    rw [List.foldl_cons]
    apply ih
    · intro t ht
      exact hmem t (List.mem_cons_of_mem _ ht)
    · intro j v hj
      by_cases hlt : s.shard_number < total
      · rw [if_pos hlt] at hj
        by_cases hji : s.shard_number = j
        · subst hji
          rw [List.getElem?_set] at hj
          simp only [if_pos rfl] at hj
          by_cases hb : s.shard_number < acc.length
          · rw [if_pos hb] at hj
            cases hj
            exact hmem s (List.mem_cons_self ..)
          · rw [if_neg hb] at hj
            simp at hj
        · rw [List.getElem?_set_ne hji] at hj
          exact hacc j v hj
      · rw [if_neg hlt] at hj
        exact hacc j v hj

theorem filterMap_id_set_some (x : List Nat) :
    ∀ (l : List (Option (List Nat))) (i : Nat), l[i]? = some none →
      ((l.set i (some x)).filterMap id).length = (l.filterMap id).length + 1 := by
  intro l
  induction l with
  | nil => intro i h; simp at h
  | cons a as ih =>
    intro i h
    match i with
    | 0 =>
      simp only [List.getElem?_cons_zero] at h
      cases h
      simp [List.filterMap_cons]
    | i + 1 =>
      simp only [List.getElem?_cons_succ] at h
      simp only [List.set_cons_succ]
      cases a with
      | none =>
        simp only [List.filterMap_cons, id]
        exact ih i h
      | some y =>
        simp only [List.filterMap_cons, id, List.length_cons]
        rw [ih i h]

theorem fillShards_go_count (total : Nat) :
    ∀ (l : List ShardData) (acc : List (Option (List Nat))),
      acc.length = total →
      (∀ s ∈ l, acc[s.shard_number]? = some none) →
      (l.map (·.shard_number)).Nodup →
      ((l.foldl (fun shards s =>
        if s.shard_number < total then shards.set s.shard_number (some s.data) else shards)
        acc).filterMap id).length = (acc.filterMap id).length + l.length := by
  intro l
  induction l with
  | nil => intro acc _ _ _; simp
  | cons s rest ih =>
    intro acc hlen hmem hnodup
    rw [List.foldl_cons]
    have hs : acc[s.shard_number]? = some none := hmem s (List.mem_cons_self ..)
    have hlt : s.shard_number < total := by
      obtain ⟨h1, -⟩ := List.getElem?_eq_some_iff.mp hs
      omega
    rw [if_pos hlt]
    rw [List.map_cons] at hnodup
    have hnd := List.nodup_cons.mp hnodup
    rw [ih (acc.set s.shard_number (some s.data)) (by simp [hlen])
      (fun t ht => by
        have hne : s.shard_number ≠ t.shard_number := by
          intro he
          exact hnd.1 (he ▸ List.mem_map_of_mem (·.shard_number) ht)
        rw [List.getElem?_set_ne hne]
        exact hmem t (List.mem_cons_of_mem _ ht))
      hnd.2]
    rw [filterMap_id_set_some _ _ _ hs]
    simp only [List.length_cons]
    omega

theorem fillShards_count (total : Nat) (available : List ShardData)
    (hrange : ∀ s ∈ available, s.shard_number < total)
    (hnodup : (available.map (·.shard_number)).Nodup) :
    ((fillShards total available).filterMap id).length = available.length := by
  rw [fillShards, fillShards_go_count total available _ (by simp)
    (fun s hs => by
      show (List.replicate total (none : Option (List Nat)))[s.shard_number]? = some none
      rw [List.getElem?_replicate, if_pos (hrange s hs)]) hnodup]
  simp

theorem fillShards_consistent (total : Nat) (rows : List (List Nat))
    (available : List ShardData)
    (hmem : ∀ s ∈ available, rows[s.shard_number]? = some s.data) :
    ∀ (j : Nat) (v : List Nat),
      (fillShards total available)[j]? = some (some v) → rows[j]? = some v := by
  rw [fillShards]
  apply fillShards_go_consistent total rows available _ hmem
  intro j v hj
  rw [List.getElem?_replicate] at hj
  split at hj <;> cases hj

theorem collectData_map_some : ∀ (k : Nat) (rows : List (List Nat)), k ≤ rows.length →
    collectData k (rows.map some) = some ((rows.take k).flatten)
  | 0, rows, _ => by simp [collectData]
  | k + 1, [], h => by simp at h
  | k + 1, r :: rs, h => by
    simp only [List.map_cons, collectData, List.take_succ_cons, List.flatten_cons]
    rw [collectData_map_some k rs (by simpa using h)]
    rfl

/-- The flattening of the data rows built for a chunk: the payload followed
by padlen zero bytes. -/
theorem dataRows_flatten (k : Nat) (data : List Nat) (hk : 1 ≤ k) (hdata : data ≠ []) :
    (copyPieces (List.replicate k (List.replicate ((data.length + k - 1) / k) 0))
      (chunksOf ((data.length + k - 1) / k) data)).flatten
      = data ++ List.replicate (k * ((data.length + k - 1) / k) - data.length) 0 := by
  have hL : 0 < data.length := List.length_pos.mpr hdata
  have hss : 0 < (data.length + k - 1) / k := Nat.div_pos (by omega) (by omega)
  exact flatten_copyPieces_replicate _ hss k data (le_mul_ceil_div (by omega))

/-! ## C2 -/

/-- C2: with fewer than k shards decode_chunk fails with InsufficientShards
carrying needed = k and available = the number of provided shards; with at
least k distinct shards drawn from the m emitted rows of a chunk (and a
correct Reed-Solomon reconstructor) it succeeds and returns the chunk
byte-identically, trimmed by the chunk's compressed size. -/
theorem c2_insufficient_and_recovery :
    (∀ (rec : List (Option (List Nat)) → Option (List (Option (List Nat))))
       (available : List ShardData) (k p : Nat) (expected : Option Nat),
       available.length < k →
       decode_chunk rec available k p expected =
         .error (.insufficientShards (((available.head?).map (·.chunk_number)).getD 0)
            k available.length)) ∧
    (∀ (k p : Nat) (parityFn : List (List Nat) → List (List Nat)) (data : List Nat)
       (rec : List (Option (List Nat)) → Option (List (Option (List Nat))))
       (provided : List ShardData) (enc : EncodedChunk),
       1 ≤ k → 1 ≤ p → k + p ≤ 255 → data ≠ [] →
       encodeAndWriteShards k p parityFn data = .ok enc →
       enc.rows.length = k + p →
       (∀ s ∈ provided, s.shard_number < k + p ∧ enc.rows[s.shard_number]? = some s.data) →
       (provided.map (·.shard_number)).Nodup →
       k ≤ provided.length →
       ReconstructsCodeword rec enc.rows k →
       decode_chunk rec provided k p (some data.length) = .ok data) := by
  constructor
  · intro rec available k p expected hlt
    simp only [decode_chunk]
    rw [if_pos hlt]
  · intro k p parityFn data rec provided enc hk hp hkp hdata hEnc hrowslen hmem hnodup hcount hrec
    have hne : provided ≠ [] := by
      intro hnil
      rw [hnil] at hcount
      simp at hcount
      omega
    obtain ⟨s0, rest, rfl⟩ := List.exists_cons_of_ne_nil hne
    have hfill : rec (fillShards (k + p) (s0 :: rest)) = some (enc.rows.map some) :=
      hrec (fillShards (k + p) (s0 :: rest))
        (by rw [fillShards_length, hrowslen])
        (by
          rw [fillShards_count (k + p) _ (fun s hs => (hmem s hs).1) hnodup]
          exact hcount)
        (fillShards_consistent (k + p) enc.rows _ (fun s hs => (hmem s hs).2))
    have hrows : enc.rows =
        (copyPieces (List.replicate k (List.replicate ((data.length + k - 1) / k) 0))
          (chunksOf ((data.length + k - 1) / k) data))
          ++ parityFn (copyPieces (List.replicate k
              (List.replicate ((data.length + k - 1) / k) 0))
            (chunksOf ((data.length + k - 1) / k) data)) := by
      rw [encodeAndWriteShards_ok k p parityFn data hk hp hkp hdata] at hEnc
      exact (congrArg EncodedChunk.rows ((Except.ok.injEq _ _).mp hEnc)).symm
    simp only [decode_chunk]
    rw [if_neg (by omega)]
    simp only [List.head?_cons]
    rw [if_neg (by omega)]
    simp only [hfill]
    have hcd := collectData_map_some k enc.rows (by omega)
    simp only [hcd]
    rw [hrows]
    have hL : 0 < data.length := List.length_pos.mpr hdata
    have hss : 0 < (data.length + k - 1) / k := Nat.div_pos (by omega) (by omega)
    have hlen : (copyPieces (List.replicate k (List.replicate ((data.length + k - 1) / k) 0))
        (chunksOf ((data.length + k - 1) / k) data)).length = k := by
      rw [copyPieces_length]
      simp
    rw [List.take_append_of_le_length hlen.ge]
    rw [List.take_of_length_le hlen.le]
    rw [dataRows_flatten k data hk hdata]
    by_cases hpad : data.length < (data ++ List.replicate
        (k * ((data.length + k - 1) / k) - data.length) 0).length
    · rw [if_pos hpad]
      rw [List.take_append_of_le_length le_rfl]
      rw [List.take_of_length_le le_rfl]
    · rw [if_neg hpad]
      simp only [List.length_append, List.length_replicate] at hpad
      rw [show k * ((data.length + k - 1) / k) - data.length = 0 by omega]
      simp

/-- C2 witness: k = 2, parity 1, payload [5, 6, 7]; providing data shard 0
and the parity shard (rows 0 and 2) recovers [5, 6, 7] exactly, through a
reconstructor that is correct for this chunk's codeword. -/
theorem c2_insufficient_and_recovery_witness :
    decode_chunk (fun _ => some [some [5, 6], some [7, 0], some [11, 12]])
      [⟨1, 0, [5, 6], none⟩, ⟨1, 2, [11, 12], none⟩] 2 1 (some 3) = .ok [5, 6, 7] := by
  have hEnc : encodeAndWriteShards 2 1 (fun _ => [[11, 12]]) [5, 6, 7] =
      .ok ⟨2, 1, [[5, 6], [7, 0], [11, 12]]⟩ := by
    simp [encodeAndWriteShards, chunksOf, copyPieces]
  exact c2_insufficient_and_recovery.2 2 1 (fun _ => [[11, 12]]) [5, 6, 7]
    (fun _ => some [some [5, 6], some [7, 0], some [11, 12]])
    [⟨1, 0, [5, 6], none⟩, ⟨1, 2, [11, 12], none⟩]
    ⟨2, 1, [[5, 6], [7, 0], [11, 12]]⟩
    (by norm_num) (by norm_num) (by norm_num) (by simp)
    hEnc (by decide) (by decide) (by decide) (by decide)
    (fun _ _ _ _ => rfl)

/-! ## C9 -/

/-- C9: a shard with shard_number ≥ data_shards + parity_shards counts
toward the availability check but is skipped when the reconstruction vector
is filled, so an input with enough shards overall but too few in range
passes the check and never yields InsufficientShards (whatever the
Reed-Solomon reconstruction then does). -/
theorem c9_out_of_range_shard_skipped :
    (¬ ([(⟨1, 0, [5], none⟩ : ShardData), ⟨1, 5, [6], none⟩].length < 2)) ∧
    (([(⟨1, 0, [5], none⟩ : ShardData), ⟨1, 5, [6], none⟩].filter
        (fun s => s.shard_number < 2 + 1)).length < 2) ∧
    fillShards (2 + 1) [⟨1, 0, [5], none⟩, ⟨1, 5, [6], none⟩] = [some [5], none, none] ∧
    ∀ (rec : List (Option (List Nat)) → Option (List (Option (List Nat)))) (c n a : Nat),
      decode_chunk rec [⟨1, 0, [5], none⟩, ⟨1, 5, [6], none⟩] 2 1 none ≠
        .error (.insufficientShards c n a) := by
  refine ⟨by decide, by decide, by decide, ?_⟩
  intro rec c n a h
  simp only [decode_chunk] at h
  rw [if_neg (by decide)] at h
  simp only [List.head?_cons] at h
  rw [if_neg (by decide)] at h
  rcases hx : rec (fillShards (2 + 1) [⟨1, 0, [5], none⟩, ⟨1, 5, [6], none⟩]) with _ | shards
  · rw [hx] at h
    cases h
  · simp only [hx] at h
    rcases hy : collectData 2 shards with _ | recon
    · simp only [hy] at h
      cases h
    · simp only [hy] at h
      cases h

/-! ## C10 -/

/-- C10: decode_chunk's trimming is one-sided: whenever the concatenated
reconstruction is no longer than the provided expected size (including
expected sizes larger than the concatenation), the full untrimmed
concatenation is returned and the call succeeds; truncation only happens
when the reconstruction is strictly longer than expected. -/
theorem c10_trim_one_sided
    (rec : List (Option (List Nat)) → Option (List (Option (List Nat))))
    (available : List ShardData) (k p expected : Nat)
    (shards' : List (Option (List Nat))) (recon : List Nat)
    (hk : 1 ≤ k) (hp : 1 ≤ p) (hkp : k + p ≤ 256) (hav : k ≤ available.length)
    (hrec : rec (fillShards (k + p) available) = some shards')
    (hcol : collectData k shards' = some recon)
    (hle : recon.length ≤ expected) :
    decode_chunk rec available k p (some expected) = .ok recon := by
  have hne : available ≠ [] := by
    intro hnil
    rw [hnil] at hav
    simp at hav
    omega
  obtain ⟨s0, rest, rfl⟩ := List.exists_cons_of_ne_nil hne
  simp only [decode_chunk]
  rw [if_neg (by omega)]
  simp only [List.head?_cons]
  rw [if_neg (by omega)]
  simp only [hrec]
  simp only [hcol]
  rw [if_neg (by omega)]

/-- C10 witness: all three shards of a k = 2, parity 1 chunk provided, with
an expected size 5 that exceeds the 2-byte concatenation; the full
concatenation comes back untrimmed and without error. -/
theorem c10_trim_one_sided_witness :
    decode_chunk trivialReconstruct
      [⟨1, 0, [1], none⟩, ⟨1, 1, [2], none⟩, ⟨1, 2, [3], none⟩] 2 1 (some 5) =
      .ok [1, 2] :=
  c10_trim_one_sided trivialReconstruct
    [⟨1, 0, [1], none⟩, ⟨1, 1, [2], none⟩, ⟨1, 2, [3], none⟩] 2 1 5
    [some [1], some [2], some [3]] [1, 2]
    (by norm_num) (by norm_num) (by norm_num) (by norm_num)
    (by decide) (by decide) (by norm_num)

/-! ## C5 -/

/-- C5 counterexample: with chunk_size 2, writing exactly 2 bytes fills
chunk 1 exactly; current_chunk_number() still reports 1, yet the next byte
written opens chunk 2 (the write closes chunk 1, records its ChunkInfo and
buffers the byte in chunk 2) — contradicting the claim that at every point
the reported number is the chunk the next input byte will land in. -/
theorem c5_boundary_counterexample :
    write (fun rows => rows) (newWriter 2 1 1) [7, 7] =
      .ok ⟨2, 1, 1, 1, 2, some [7, 7], []⟩ ∧
    currentChunkNumber ⟨2, 1, 1, 1, 2, some [7, 7], []⟩ = 1 ∧
    write (fun rows => rows) ⟨2, 1, 1, 1, 2, some [7, 7], []⟩ [9] =
      .ok ⟨2, 1, 1, 2, 1, some [9], [⟨1, 2, 2, 2⟩]⟩ := by
  refine ⟨by decide, by decide, ?_⟩
  simp [write, writeAux, startNewChunk, finishCurrentChunk, encodeAndWriteShards,
    chunksOf, copyPieces]

/-- C5 amended: current_chunk_number is 1 before the first write, and while
a chunk is open with room left a one-byte write lands in the reported
chunk; but immediately after a write that made bytes_in_current_chunk equal
chunk_size the function still reports the just-filled chunk number — the
next byte then opens the following chunk. -/
theorem c5_current_chunk_number :
    (∀ chunk_size k p, currentChunkNumber (newWriter chunk_size k p) = 1) ∧
    (∀ (st : WriterState) (x : Nat) (parityFn : List (List Nat) → List (List Nat))
       (b : List Nat),
       st.current_buffer = some b →
       st.current_chunk ≠ 0 →
       st.bytes_in_current_chunk < st.chunk_size →
       write parityFn st [x] =
         .ok { st with current_buffer := some (b ++ [x]),
                       bytes_in_current_chunk := st.bytes_in_current_chunk + 1 } ∧
       currentChunkNumber { st with current_buffer := some (b ++ [x]),
                                    bytes_in_current_chunk :=
                                      st.bytes_in_current_chunk + 1 }
         = currentChunkNumber st) ∧
    (∀ (st : WriterState) (x : Nat) (parityFn : List (List Nat) → List (List Nat))
       (b : List Nat),
       st.current_buffer = some b →
       b ≠ [] →
       st.current_chunk ≠ 0 →
       st.bytes_in_current_chunk = st.chunk_size →
       1 ≤ st.chunk_size →
       1 ≤ st.data_shards → 1 ≤ st.parity_shards →
       st.data_shards + st.parity_shards ≤ 255 →
       ∃ enc, encodeAndWriteShards st.data_shards st.parity_shards parityFn b = .ok enc ∧
         write parityFn st [x] =
           .ok { st with current_chunk := st.current_chunk + 1,
                         bytes_in_current_chunk := 1,
                         current_buffer := some [x],
                         chunks_created := st.chunks_created ++
                           [⟨st.current_chunk, b.length, b.length, enc.shard_size⟩] } ∧
         currentChunkNumber st = st.current_chunk) := by
  refine ⟨?_, ?_, ?_⟩
  · intro chunk_size k p
    rfl
  · intro st x parityFn b hb hcc hlt
    refine ⟨?_, by simp [currentChunkNumber]⟩
    rw [write, if_neg (by simp)]
    simp only [hb, Option.isNone_some, Bool.false_eq_true, if_false]
    have hmin : min (st.chunk_size - st.bytes_in_current_chunk) 1 = 1 := by omega
    simp [writeAux, hmin, hb]
  · intro st x parityFn b hb hbne hcc hfull hcs hk hp hkp
    have hEnc := encodeAndWriteShards_ok st.data_shards st.parity_shards parityFn b
      hk hp hkp hbne
    refine ⟨_, hEnc, ?_, by rw [currentChunkNumber, if_neg hcc]⟩
    rw [write, if_neg (by simp)]
    simp only [hb, Option.isNone_some, Bool.false_eq_true, if_false]
    have hmin0 : min (st.chunk_size - st.bytes_in_current_chunk) 1 = 0 := by omega
    have hmin1 : min st.chunk_size 1 = 1 := by omega
    simp [writeAux, startNewChunk, finishCurrentChunk, hb, hEnc, hmin0, hmin1,
      List.length_pos.mpr hbne, (by simpa using hbne : ¬ b.length = 0)]

/-- C5 witness: the amended behavior at a concrete boundary state — a
chunk_size-2 writer whose open chunk holds exactly 2 bytes reports chunk 1,
and the next one-byte write opens chunk 2. -/
theorem c5_current_chunk_number_witness :
    currentChunkNumber (newWriter 2 1 1) = 1 ∧
    (∃ enc, encodeAndWriteShards 1 1 (fun rows => rows) [7, 7] = .ok enc ∧
      write (fun rows => rows) ⟨2, 1, 1, 1, 2, some [7, 7], []⟩ [9] =
        .ok { (⟨2, 1, 1, 1, 2, some [7, 7], []⟩ : WriterState) with
              current_chunk := 1 + 1,
              bytes_in_current_chunk := 1,
              current_buffer := some [9],
              chunks_created := [] ++ [⟨1, [7, 7].length, [7, 7].length, enc.shard_size⟩] } ∧
      currentChunkNumber ⟨2, 1, 1, 1, 2, some [7, 7], []⟩ = 1) :=
  ⟨c5_current_chunk_number.1 2 1 1,
   c5_current_chunk_number.2.2 ⟨2, 1, 1, 1, 2, some [7, 7], []⟩ 9 (fun rows => rows)
     [7, 7] rfl (by decide) (by decide) rfl (by decide) (by decide) (by decide) (by decide)⟩

/-! ## Filename parsing lemmas -/

theorem findSub_cons_of_prefix {pat : List Nat} {s : List Nat} (x : Nat) (xs : List Nat)
    (hs : s = x :: xs) (h : pat.isPrefixOf s = true) : findSub pat s = some 0 := by
  subst hs
  rw [findSub, if_pos h]

theorem findSub_append {pat u v : List Nat}
    (h : ∀ i, i < u.length → pat.isPrefixOf ((u ++ v).drop i) = false) :
    findSub pat (u ++ v) = (findSub pat v).map (· + u.length) := by
  induction u with
  | nil =>
    simp only [List.nil_append, List.length_nil]
    cases findSub pat v <;> simp
  | cons a au ih =>
    rw [List.cons_append, findSub]
    rw [if_neg (by
      have := h 0 (by simp)
      simp only [List.drop_zero, List.cons_append] at this
      simp [this])]
    rw [ih (by
      intro i hi
      have := h (i + 1) (by simp; omega)
      simpa [List.cons_append, List.drop_succ_cons] using this)]
    cases findSub pat v <;> rfl

theorem rfindSub_append {pat u v : List Nat} {j : Nat} (hv : rfindSub pat v = some j) :
    rfindSub pat (u ++ v) = some (u.length + j) := by
  induction u with
  | nil => simpa using hv
  | cons a au ih =>
    rw [List.cons_append, rfindSub]
    simp only [ih, List.length_cons]
    congr 1
    omega

theorem rfindSub_no_dot {s : List Nat} (h : ∀ c ∈ s, c ≠ 46) :
    ∀ pat1, rfindSub [46, pat1] s = none := by
  induction s with
  | nil => intro pat1; rfl
  | cons a as ih =>
    intro pat1
    rw [rfindSub, ih (fun c hc => h c (List.mem_cons_of_mem _ hc))]
    rw [if_neg (by
      have ha : a ≠ 46 := h a (List.mem_cons_self ..)
      simp [List.isPrefixOf]
      intro he
      omega)]

theorem all_digits_no_dot {s : List Nat} (h : s.all (fun b => 48 ≤ b ∧ b ≤ 57) = true) :
    ∀ c ∈ s, c ≠ 46 := by
  intro c hc
  have := List.all_eq_true.mp h c hc
  simp at this
  omega

theorem natDigitBytesAux_spec : ∀ (fuel n : Nat), n < fuel →
    (natDigitBytesAux fuel n).all (fun b => 48 ≤ b ∧ b ≤ 57) = true ∧
    natDigitBytesAux fuel n ≠ [] ∧
    ∀ acc : Nat, (natDigitBytesAux fuel n).foldl (fun acc b => acc * 10 + (b - 48)) acc
      = acc * 10 ^ (natDigitBytesAux fuel n).length + n := by
  intro fuel
  induction fuel with
  | zero => intro n hn; omega
  | succ fuel ih =>
    intro n hn
    rw [natDigitBytesAux]
    by_cases h10 : n < 10
    · rw [if_pos h10]
      refine ⟨by simp; omega, by simp, ?_⟩
      intro acc
      simp only [List.foldl_cons, List.foldl_nil, List.length_cons, List.length_nil]
      have : 48 + n - 48 = n := by omega
      rw [this]
      ring
    · rw [if_neg h10]
      have hrec : n / 10 < fuel := by omega
      obtain ⟨hall, hne, hfold⟩ := ih (n / 10) hrec
      refine ⟨?_, by simp, ?_⟩
      · rw [List.all_append, hall]
        simp
        omega
      · intro acc
        rw [List.foldl_append, hfold acc]
        simp only [List.foldl_cons, List.foldl_nil, List.length_append,
          List.length_cons, List.length_nil]
        have h1 : 48 + n % 10 - 48 = n % 10 := by omega
        rw [h1]
        have h2 := Nat.div_add_mod n 10
        have h3 : (10 : Nat) ^ ((natDigitBytesAux fuel (n / 10)).length + (0 + 1))
            = 10 ^ (natDigitBytesAux fuel (n / 10)).length * 10 := by
          rw [pow_succ]
        rw [h3]
        nlinarith [h2]

theorem parseUsize_zeroPad (w n : Nat) :
    parseUsize (zeroPad w (natDigitBytes n)) = some n := by
  obtain ⟨hall, hne, hfold⟩ := natDigitBytesAux_spec (n + 1) n (by omega)
  rw [zeroPad, natDigitBytes]
  simp only [parseUsize]
  have hzall : (List.replicate (w - (natDigitBytesAux (n + 1) n).length) (48 : Nat)).all
      (fun b => 48 ≤ b ∧ b ≤ 57) = true := by
    simp [List.all_eq_true]
  have hne' : List.replicate (w - (natDigitBytesAux (n + 1) n).length) (48 : Nat) ++
      natDigitBytesAux (n + 1) n ≠ [] := by
    simp [hne]
  have hnot43 : ∀ t, (List.replicate (w - (natDigitBytesAux (n + 1) n).length) (48 : Nat) ++
      natDigitBytesAux (n + 1) n) ≠ 43 :: t := by
    intro t hcontra
    rcases Nat.eq_zero_or_pos (w - (natDigitBytesAux (n + 1) n).length) with hz | hz
    · rw [hz] at hcontra
      simp only [List.replicate_zero, List.nil_append] at hcontra
      have := List.all_eq_true.mp hall 43 (by rw [hcontra]; exact List.mem_cons_self ..)
      simp at this
    · obtain ⟨z, hzeq⟩ := Nat.exists_eq_add_of_lt hz
      rw [show w - (natDigitBytesAux (n + 1) n).length = z + 1 by omega] at hcontra
      rw [List.replicate_succ, List.cons_append] at hcontra
      cases hcontra
  have hmatch : (match (List.replicate (w - (natDigitBytesAux (n + 1) n).length) (48 : Nat) ++
      natDigitBytesAux (n + 1) n) with
      | b :: rest => if b = 43 then rest
        else List.replicate (w - (natDigitBytesAux (n + 1) n).length) 48 ++
          natDigitBytesAux (n + 1) n
      | [] => List.replicate (w - (natDigitBytesAux (n + 1) n).length) 48 ++
          natDigitBytesAux (n + 1) n) =
      List.replicate (w - (natDigitBytesAux (n + 1) n).length) 48 ++
        natDigitBytesAux (n + 1) n := by
    rcases hl : List.replicate (w - (natDigitBytesAux (n + 1) n).length) (48 : Nat) ++
        natDigitBytesAux (n + 1) n with _ | ⟨b, rest⟩
    · rfl
    · by_cases hb : b = 43
      · exact absurd (hb ▸ hl) (hnot43 rest)
      · simp [hb]
  rw [hmatch, if_neg hne']
  rw [if_pos (by rw [List.all_append, hzall, hall]; rfl)]
  congr 1
  rw [List.foldl_append]
  have hzfold : (List.replicate (w - (natDigitBytesAux (n + 1) n).length) (48 : Nat)).foldl
      (fun acc b => acc * 10 + (b - 48)) 0 = 0 := by
    generalize w - (natDigitBytesAux (n + 1) n).length = z
    induction z with
    | zero => rfl
    | succ z ihz => rw [List.replicate_succ, List.foldl_cons]; simpa using ihz
  rw [hzfold, hfold 0]
  simp

theorem natDigitBytes_all (n : Nat) :
    (natDigitBytes n).all (fun b => 48 ≤ b ∧ b ≤ 57) = true :=
  (natDigitBytesAux_spec (n + 1) n (by omega)).1

theorem zeroPad_all_digits (w n : Nat) :
    (zeroPad w (natDigitBytes n)).all (fun b => 48 ≤ b ∧ b ≤ 57) = true := by
  rw [zeroPad, List.all_append, natDigitBytes_all]
  simp [List.all_eq_true]

/-! ## C6 -/

/-- C6 counterexample: parse_shard_filename locates the leftmost ".c", not
the ".c" immediately preceding the rightmost ".s"; for the base "x.c1",
format_shard_path produces "x.c1.c002.s03", whose parse fails because the
text between the first ".c" and the ".s" is "1.c002", which is not a
number — so the claimed round trip does not hold for bases containing
".c". -/
theorem c6_parse_format_counterexample :
    formatShardPath [120, 46, 99, 49] 2 3 =
      [120, 46, 99, 49, 46, 99, 48, 48, 50, 46, 115, 48, 51] ∧
    parseShardFilename [120, 46, 99, 49, 46, 99, 48, 48, 50, 46, 115, 48, 51] =
      .error .invalidShardFile := by
  exact ⟨by decide, by decide⟩

/-- C6 amended: parse_shard_filename takes the chunk number from between
the leftmost ".c" and the rightmost ".s"; the round trip through
format_shard_path therefore holds exactly for bases that contain no ".c"
substring. -/
theorem c6_parse_format_roundtrip (base : List Nat) (chunk shard : Nat)
    (hbase : ∀ i, ([46, 99] : List Nat).isPrefixOf (base.drop i) = false) :
    parseShardFilename (formatShardPath base chunk shard) = .ok (chunk, shard) := by
  rw [formatShardPath]
  simp only [List.append_assoc]
  set P3 := zeroPad 3 (natDigitBytes chunk) with hP3
  set P2 := zeroPad 2 (natDigitBytes shard) with hP2
  have hP3d : P3.all (fun b => 48 ≤ b ∧ b ≤ 57) = true := zeroPad_all_digits 3 chunk
  have hP2d : P2.all (fun b => 48 ≤ b ∧ b ≤ 57) = true := zeroPad_all_digits 2 shard
  have hfind : findSub [46, 99]
      (base ++ ([46, 99] ++ (P3 ++ ([46, 115] ++ P2)))) = some base.length := by
    rw [findSub_append (by
      intro i hi
      rw [List.drop_append_of_le_length (le_of_lt hi)]
      obtain ⟨c, w, hw⟩ := List.exists_cons_of_ne_nil
        (show base.drop i ≠ [] by rw [ne_eq, List.drop_eq_nil_iff]; omega)
      rw [hw]
      have hbi := hbase i
      rw [hw] at hbi
      cases w with
      | nil => simp [List.isPrefixOf]
      | cons d w' => simpa [List.isPrefixOf] using hbi)]
    rw [show ([46, 99] ++ (P3 ++ ([46, 115] ++ P2)))
        = 46 :: (99 :: (P3 ++ ([46, 115] ++ P2))) from rfl]
    rw [findSub, if_pos (by simp [List.isPrefixOf])]
    simp
  have hrfP2 : rfindSub [46, 115] P2 = none :=
    rfindSub_no_dot (all_digits_no_dot hP2d) 115
  have hrf0 : rfindSub [46, 115] ([46, 115] ++ P2) = some 0 := by
    rw [show ([46, 115] ++ P2) = 46 :: (115 :: P2) from rfl]
    rw [rfindSub]
    rw [show rfindSub [46, 115] (115 :: P2) = none by
      rw [rfindSub, hrfP2]
      rw [if_neg (by simp [List.isPrefixOf])]]
    rw [if_pos (by simp [List.isPrefixOf])]
  have hrf : rfindSub [46, 115]
      (base ++ ([46, 99] ++ (P3 ++ ([46, 115] ++ P2))))
      = some (base.length + (2 + (P3.length + 0))) := by
    rw [rfindSub_append (rfindSub_append (rfindSub_append hrf0))]
    rfl
  have hpc : parseUsize P3 = some chunk := by
    rw [hP3]
    exact parseUsize_zeroPad 3 chunk
  have hps : parseUsize P2 = some shard := by
    rw [hP2]
    exact parseUsize_zeroPad 2 shard
  have hdrop1 : (base ++ ([46, 99] ++ (P3 ++ ([46, 115] ++ P2)))).drop (base.length + 2)
      = P3 ++ ([46, 115] ++ P2) := by
    rw [← List.drop_drop, List.drop_left]
    rfl
  have hdrop2 : (base ++ ([46, 99] ++ (P3 ++ ([46, 115] ++ P2)))).drop
      (base.length + (2 + (P3.length + 0)) + 2) = P2 := by
    rw [show base.length + (2 + (P3.length + 0)) + 2
        = base.length + (2 + (P3.length + 2)) by omega]
    rw [← List.drop_drop, List.drop_left]
    rw [← List.drop_drop]
    rw [show List.drop 2 ([46, 99] ++ (P3 ++ ([46, 115] ++ P2)))
        = P3 ++ ([46, 115] ++ P2) from rfl]
    rw [← List.drop_drop, List.drop_left]
    rfl
  simp only [parseShardFilename, hfind, hrf]
  rw [if_neg (by omega)]
  rw [hdrop1]
  rw [show base.length + (2 + (P3.length + 0)) - (base.length + 2) = P3.length by omega]
  rw [List.take_left]
  simp only [hpc]
  rw [hdrop2]
  simp only [hps]

/-- C6 witness: the amended round trip at the concrete base "a" (no ".c"
substring), chunk 12, shard 3. -/
theorem c6_parse_format_roundtrip_witness :
    parseShardFilename (formatShardPath [97] 12 3) = .ok (12, 3) :=
  c6_parse_format_roundtrip [97] 12 3 (by
    intro i
    match i with
    | 0 => rfl
    | i + 1 => simp [List.isPrefixOf])

/-! ## C7 -/

/-- C7 counterexample: in the index-less path with partial mode disabled
and k = 2, chunk 1 reconstructs (all three of its m = 3 shards are present,
so any reconstructor — the real crate included — returns them unchanged)
while chunk 2 holds a single shard and fails the shards.len() < data_shards
availability check before any reconstructor runs; yet extraction returns
success with chunks_failed = 1 instead of aborting with ErasureCoding as
the claim requires. -/
theorem c7_headerless_no_abort_counterexample :
    extractFromShardsOnly trivialReconstruct false
      [(1, [⟨1, 0, [7], some ⟨2, 3, 0, 0⟩⟩, ⟨1, 1, [9], none⟩,
            ⟨1, 2, [5], none⟩]),
       (2, [⟨2, 0, [4], some ⟨2, 3, 0, 0⟩⟩])] = .ok ⟨2, 1, 1, 0⟩ := by
  decide

/-- C7 amended: in the indexed path a failed chunk aborts extraction with
ErasureCoding whenever partial mode is disabled, and partial mode never
aborts; in the index-less path the partial flag is ignored after the loop:
extraction fails (with ErasureCoding) exactly when no chunk at all was
recovered, and otherwise succeeds even when chunks failed and partial mode
is disabled. -/
theorem c7_partial_mode_policy :
    (∀ (rec : List (Option (List Nat)) → Option (List (Option (List Nat))))
       (k p : Nat) (shardsByChunk : List (Nat × List ShardData))
       (indexChunks : List (Nat × Nat)),
       (chunkLoopIndexed rec k p shardsByChunk indexChunks).2 ≠ [] →
       extractWithIndex rec false k p shardsByChunk indexChunks = .error .erasureCoding) ∧
    (∀ (rec : List (Option (List Nat)) → Option (List (Option (List Nat))))
       (k p : Nat) (shardsByChunk : List (Nat × List ShardData))
       (indexChunks : List (Nat × Nat)),
       ∃ md, extractWithIndex rec true k p shardsByChunk indexChunks = .ok md) ∧
    (∀ (rec : List (Option (List Nat)) → Option (List (Option (List Nat))))
       (pmode : Bool) (c0 : Nat) (s0 : ShardData) (tl : List ShardData)
       (rest : List (Nat × List ShardData)) (hz : ZfecHeader),
       s0.header = some hz →
       ((chunkLoopHeaderless rec hz.k (hz.m - hz.k) ((c0, s0 :: tl) :: rest)
           (((c0, s0 :: tl) :: rest).map Prod.fst)).1 ≠ 0 →
         extractFromShardsOnly rec pmode ((c0, s0 :: tl) :: rest) =
           .ok ⟨((c0, s0 :: tl) :: rest).length,
                (chunkLoopHeaderless rec hz.k (hz.m - hz.k) ((c0, s0 :: tl) :: rest)
                  (((c0, s0 :: tl) :: rest).map Prod.fst)).1,
                (chunkLoopHeaderless rec hz.k (hz.m - hz.k) ((c0, s0 :: tl) :: rest)
                  (((c0, s0 :: tl) :: rest).map Prod.fst)).2.length, 0⟩) ∧
       ((chunkLoopHeaderless rec hz.k (hz.m - hz.k) ((c0, s0 :: tl) :: rest)
           (((c0, s0 :: tl) :: rest).map Prod.fst)).1 = 0 →
         extractFromShardsOnly rec pmode ((c0, s0 :: tl) :: rest) =
           .error .erasureCoding)) := by
  refine ⟨?_, ?_, ?_⟩
  · intro rec k p shardsByChunk indexChunks hfail
    rw [extractWithIndex]
    by_cases hz : (chunkLoopIndexed rec k p shardsByChunk indexChunks).1 = 0
    · rw [if_pos hz]
      rfl
    · rw [if_neg hz, if_pos (by simp [hfail])]
  · intro rec k p shardsByChunk indexChunks
    rw [extractWithIndex]
    by_cases hz : (chunkLoopIndexed rec k p shardsByChunk indexChunks).1 = 0
    · rw [if_pos hz]
      exact ⟨_, rfl⟩
    · rw [if_neg hz, if_neg (by simp)]
      exact ⟨_, rfl⟩
  · intro rec pmode c0 s0 tl rest hz hhz
    constructor
    · intro hres
      simp only [extractFromShardsOnly, List.head?_cons, hhz]
      rw [if_neg hres]
    · intro hres
      simp only [extractFromShardsOnly, List.head?_cons, hhz]
      rw [if_pos hres]

/-- C7 witness: concrete instantiations — an indexed extraction whose only
chunk has no shards (so no reconstructor is ever consulted) aborts with
ErasureCoding when partial is off and succeeds when partial is on, and the
index-less scenario of the counterexample (chunk 1 complete, chunk 2 short
of the availability check) goes through the amended success clause. -/
theorem c7_partial_mode_policy_witness :
    extractWithIndex trivialReconstruct false 1 1 [] [(1, 1)] = .error .erasureCoding ∧
    (∃ md, extractWithIndex trivialReconstruct true 1 1 [] [(1, 1)] = .ok md) ∧
    extractFromShardsOnly trivialReconstruct false
      [(1, [⟨1, 0, [7], some ⟨2, 3, 0, 0⟩⟩, ⟨1, 1, [9], none⟩,
            ⟨1, 2, [5], none⟩]),
       (2, [⟨2, 0, [4], some ⟨2, 3, 0, 0⟩⟩])] =
      .ok ⟨2, 1, 1, 0⟩ := by
  refine ⟨c7_partial_mode_policy.1 trivialReconstruct 1 1 [] [(1, 1)] (by decide),
          c7_partial_mode_policy.2.1 trivialReconstruct 1 1 [] [(1, 1)], ?_⟩
  have h := (c7_partial_mode_policy.2.2 trivialReconstruct false 1
    ⟨1, 0, [7], some ⟨2, 3, 0, 0⟩⟩ [⟨1, 1, [9], none⟩, ⟨1, 2, [5], none⟩]
    [(2, [⟨2, 0, [4], some ⟨2, 3, 0, 0⟩⟩])] ⟨2, 3, 0, 0⟩ rfl).1 (by decide)
  exact h

/-! ## C8 -/

/-- C8 counterexample: the configuration k = 200 data shards, 56 parity
shards (m = 256 > 255) with zfec headers in use passes
ArchiveBuilder::validate — the m ≤ 255 zfec constraint is not part of
builder validation, contradicting the claim that validation rejects every
such configuration with InvalidParameters before any output. -/
theorem c8_validate_counterexample :
    builderValidate ⟨200, 56, 3, false⟩ = .ok () ∧ 255 < 200 + 56 :=
  ⟨by decide, by decide⟩

/-- C8 amended: validate rejects k < 1, parity < 1, k + parity > 256 and an
out-of-range compression level (unless compression is bypassed) with
InvalidParameters, and accepts everything else; the m ≤ 255 zfec constraint
is enforced only later, inside encode_and_write_shards when the first chunk
is emitted (before its shard files are created). -/
theorem c8_validate_policy :
    (∀ b : BuilderParams, b.data_shards < 1 →
       builderValidate b = .error .invalidParameters) ∧
    (∀ b : BuilderParams, b.parity_shards < 1 →
       builderValidate b = .error .invalidParameters) ∧
    (∀ b : BuilderParams, 256 < b.data_shards + b.parity_shards →
       builderValidate b = .error .invalidParameters) ∧
    (∀ b : BuilderParams, b.no_compression = false →
       (b.compression_level < 1 ∨ 22 < b.compression_level) →
       builderValidate b = .error .invalidParameters) ∧
    (∀ b : BuilderParams, 1 ≤ b.data_shards → 1 ≤ b.parity_shards →
       b.data_shards + b.parity_shards ≤ 256 →
       (b.no_compression = true ∨
         (1 ≤ b.compression_level ∧ b.compression_level ≤ 22)) →
       builderValidate b = .ok ()) ∧
    (∀ (k p : Nat) (parityFn : List (List Nat) → List (List Nat)) (data : List Nat),
       data ≠ [] → 1 ≤ k → 1 ≤ p → 255 < k + p → k + p ≤ 256 →
       encodeAndWriteShards k p parityFn data = .error .invalidParameters) := by
  refine ⟨?_, ?_, ?_, ?_, ?_, ?_⟩
  · intro b h
    rw [builderValidate, if_pos h]
  · intro b h
    rw [builderValidate]
    by_cases h1 : b.data_shards < 1
    · rw [if_pos h1]
    · rw [if_neg h1, if_pos h]
  · intro b h
    rw [builderValidate]
    by_cases h1 : b.data_shards < 1
    · rw [if_pos h1]
    · rw [if_neg h1]
      by_cases h2 : b.parity_shards < 1
      · rw [if_pos h2]
      · rw [if_neg h2, if_pos h]
  · intro b hnc h
    rw [builderValidate]
    by_cases h1 : b.data_shards < 1
    · rw [if_pos h1]
    · rw [if_neg h1]
      by_cases h2 : b.parity_shards < 1
      · rw [if_pos h2]
      · rw [if_neg h2]
        by_cases h3 : 256 < b.data_shards + b.parity_shards
        · rw [if_pos h3]
        · rw [if_neg h3, if_pos (by simp [hnc])]
          rw [validateCompressionLevel, if_pos h]
  · intro b h1 h2 h3 h4
    rw [builderValidate, if_neg (by omega), if_neg (by omega), if_neg (by omega)]
    by_cases hnc : b.no_compression
    · rw [if_neg (by simp [hnc])]
    · rw [if_pos (by simp [hnc])]
      have hrange : 1 ≤ b.compression_level ∧ b.compression_level ≤ 22 := by
        rcases h4 with h4 | h4
        · exact absurd h4 hnc
        · exact h4
      rw [validateCompressionLevel, if_neg (by omega)]
  · intro k p parityFn data hdata hk hp hkp1 hkp2
    have hL : 0 < data.length := List.length_pos.mpr hdata
    have hss : 0 < (data.length + k - 1) / k := Nat.div_pos (by omega) (by omega)
    rw [encodeAndWriteShards]
    rw [if_neg (by omega), if_neg (by omega), if_neg (by omega), if_pos (by omega)]

/-- C8 witness: k = 0 is rejected; a valid configuration passes; and the
m = 256 configuration fails at first chunk emission with InvalidParameters. -/
theorem c8_validate_policy_witness :
    builderValidate ⟨0, 5, 3, false⟩ = .error .invalidParameters ∧
    builderValidate ⟨10, 5, 3, false⟩ = .ok () ∧
    encodeAndWriteShards 200 56 (fun _ => []) [1] = .error .invalidParameters :=
  ⟨c8_validate_policy.1 ⟨0, 5, 3, false⟩ (by decide),
   c8_validate_policy.2.2.2.2.1 ⟨10, 5, 3, false⟩ (by decide) (by decide) (by decide)
     (Or.inr (by decide)),
   c8_validate_policy.2.2.2.2.2 200 56 (fun _ => []) [1] (by simp) (by decide) (by decide)
     (by decide) (by decide)⟩

/-! ## Bit-arithmetic lemmas for the zfec header -/

theorem bitsCount_le_iff : ∀ (v t : Nat), bitsCount v ≤ t ↔ v < 2 ^ t := by
  intro v
  induction v using Nat.strong_induction_on with
  | _ v ih =>
    intro t
    rw [bitsCount]
    by_cases hv : v = 0
    · subst hv
      simp [Nat.pos_pow_of_pos]
    · rw [if_neg hv]
      cases t with
      | zero =>
        simp only [Nat.pow_zero]
        omega
      | succ t' =>
        have hrec := ih (v / 2) (Nat.div_lt_self (by omega) (by norm_num)) t'
        have hpow : (2 : Nat) ^ (t' + 1) = 2 * 2 ^ t' := by ring
        constructor
        · intro h
          have hlt : v / 2 < 2 ^ t' := hrec.mp (by omega)
          omega
        · intro h
          have : v / 2 < 2 ^ t' := by omega
          have := hrec.mpr this
          omega

theorem log2_ceil_le_iff (n t : Nat) : log2_ceil n ≤ t ↔ n - 1 < 2 ^ t := by
  rw [log2_ceil]
  by_cases hn : n ≤ 1
  · rw [if_pos hn]
    have : n - 1 = 0 := by omega
    rw [this]
    simp [Nat.pos_pow_of_pos]
  · rw [if_neg hn]
    exact bitsCount_le_iff (n - 1) t

theorem sub_one_lt_pow (n : Nat) : n - 1 < 2 ^ log2_ceil n :=
  (log2_ceil_le_iff n (log2_ceil n)).mp le_rfl

theorem log2_ceil_mono {k m : Nat} (h : k ≤ m) : log2_ceil k ≤ log2_ceil m := by
  rw [log2_ceil_le_iff]
  have := sub_one_lt_pow m
  omega

theorem mul_pow_lor_eq_add {a b s : Nat} (hb : b < 2 ^ s) :
    (a * 2 ^ s) ||| b = a * 2 ^ s + b := by
  apply Nat.eq_of_testBit_eq
  intro j
  rw [Nat.testBit_lor]
  rw [show a * 2 ^ s = 2 ^ s * a from Nat.mul_comm a (2 ^ s)]
  rw [Nat.testBit_mul_pow_two_add a hb j]
  rw [Nat.testBit_mul_pow_two]
  by_cases hj : j < s
  · simp [hj, show ¬(j ≥ s) by omega]
  · have hbj : b.testBit j = false :=
      Nat.testBit_lt_two_pow
        (lt_of_lt_of_le hb (Nat.pow_le_pow_right (by norm_num) (by omega)))
    simp [hj, show j ≥ s by omega, hbj]

theorem pack_lt {a b s t : Nat} (ha : a < 2 ^ t) (hb : b < 2 ^ s) :
    a * 2 ^ s + b < 2 ^ (t + s) := by
  have h1 : a * 2 ^ s ≤ (2 ^ t - 1) * 2 ^ s := by
    apply Nat.mul_le_mul_right
    omega
  have h2 : (2 ^ t - 1) * 2 ^ s = 2 ^ (t + s) - 2 ^ s := by
    rw [Nat.sub_mul, one_mul, pow_add]
  have h3 : (2 : Nat) ^ s ≤ 2 ^ (t + s) := Nat.pow_le_pow_right (by norm_num) (by omega)
  omega

theorem add_mul_div_pow {a r s : Nat} (hr : r < 2 ^ s) : (a * 2 ^ s + r) / 2 ^ s = a := by
  rw [Nat.add_comm, Nat.add_mul_div_right _ _ (Nat.pos_pow_of_pos s (by norm_num))]
  rw [Nat.div_eq_of_lt hr, Nat.zero_add]

theorem add_mul_mod_pow {a r s : Nat} (hr : r < 2 ^ s) : (a * 2 ^ s + r) % 2 ^ s = r := by
  rw [Nat.add_comm, Nat.add_mul_mod_self_right, Nat.mod_eq_of_lt hr]

theorem fromBytesBE_toBytesBE2 (v : Nat) (h : v < 2 ^ 16) :
    fromBytesBE (toBytesBE2 v) = v := by
  rw [toBytesBE2, fromBytesBE]
  simp only [List.foldl_cons, List.foldl_nil, Nat.shiftRight_eq_div_pow]
  have h' : v < 65536 := by omega
  have h8 : (2 : Nat) ^ 8 = 256 := by norm_num
  rw [h8]
  omega

theorem fromBytesBE_toBytesBE3 (v : Nat) (h : v < 2 ^ 24) :
    fromBytesBE (toBytesBE3 v) = v := by
  rw [toBytesBE3, fromBytesBE]
  simp only [List.foldl_cons, List.foldl_nil, Nat.shiftRight_eq_div_pow]
  have h' : v < 16777216 := by omega
  have h8 : (2 : Nat) ^ 8 = 256 := by norm_num
  have h16 : (2 : Nat) ^ 16 = 65536 := by norm_num
  rw [h8, h16]
  omega

theorem fromBytesBE_toBytesBE4 (v : Nat) (h : v < 2 ^ 32) :
    fromBytesBE (toBytesBE4 v) = v := by
  rw [toBytesBE4, fromBytesBE]
  simp only [List.foldl_cons, List.foldl_nil, Nat.shiftRight_eq_div_pow]
  have h' : v < 4294967296 := by omega
  have h8 : (2 : Nat) ^ 8 = 256 := by norm_num
  have h16 : (2 : Nat) ^ 16 = 65536 := by norm_num
  have h24 : (2 : Nat) ^ 24 = 16777216 := by norm_num
  rw [h8, h16, h24]
  omega

theorem mul_pow_shiftRight_add (P p q : Nat) :
    (P * 2 ^ p) >>> (p + q) = P / 2 ^ q := by
  rw [Nat.shiftRight_eq_div_pow, pow_add, ← Nat.div_div_eq_div_mul,
    Nat.mul_div_cancel P (Nat.pos_pow_of_pos p (by norm_num))]

theorem mul_pow_shiftRight_self (P p : Nat) : (P * 2 ^ p) >>> p = P := by
  rw [Nat.shiftRight_eq_div_pow,
    Nat.mul_div_cancel P (Nat.pos_pow_of_pos p (by norm_num))]

theorem and_one_shiftLeft_sub_one (x s : Nat) : x &&& ((1 <<< s) - 1) = x % 2 ^ s := by
  rw [Nat.shiftLeft_eq, one_mul, Nat.and_pow_two_sub_one_eq_mod]

/-- Decoding a byte string that stores the packed value left-aligned in
`nb` bytes recovers the original parameters. -/
theorem decode_packed (k m sharenum padlen nb : Nat) (bytes : List Nat)
    (hk : 1 ≤ k) (hkm : k ≤ m) (hm : m ≤ 255) (hs : sharenum < m)
    (hp : padlen < 2 ^ log2_ceil k)
    (hnb : (totalBits k m + 7) / 8 = nb)
    (h2 : 2 ≤ nb) (h4 : nb ≤ 4)
    (hlen : bytes.length = nb)
    (hval : fromBytesBE bytes =
      packedValue k m sharenum padlen * 2 ^ (nb * 8 - totalBits k m)) :
    ZfecHeader.decode bytes = .ok ⟨k, m, sharenum, padlen⟩ := by
  simp only [totalBits] at hnb hval
  have hA : m - 1 < 2 ^ log2_ceil m := sub_one_lt_pow m
  have hB : k - 1 < 2 ^ log2_ceil m := by omega
  have hC : padlen < 2 ^ log2_ceil k := hp
  have hD : sharenum < 2 ^ log2_ceil m := by omega
  have h256 : (2 : Nat) ^ 8 = 256 := by norm_num
  have hr1 : (k - 1) * 2 ^ (log2_ceil k + log2_ceil m) +
      (padlen * 2 ^ log2_ceil m + sharenum) <
      2 ^ (log2_ceil m + (log2_ceil k + log2_ceil m)) :=
    pack_lt hB (pack_lt hC hD)
  have hdec1 : packedValue k m sharenum padlen =
      (m - 1) * 2 ^ (log2_ceil m + (log2_ceil k + log2_ceil m)) +
        ((k - 1) * 2 ^ (log2_ceil k + log2_ceil m) +
          (padlen * 2 ^ log2_ceil m + sharenum)) := by
    rw [packedValue]; ring
  have hdec2 : packedValue k m sharenum padlen =
      ((m - 1) * 2 ^ log2_ceil m + (k - 1)) * 2 ^ (log2_ceil k + log2_ceil m) +
        (padlen * 2 ^ log2_ceil m + sharenum) := by
    rw [packedValue]; ring
  have hdec3 : packedValue k m sharenum padlen =
      ((m - 1) * 2 ^ (log2_ceil m + log2_ceil k) + (k - 1) * 2 ^ log2_ceil k +
        padlen) * 2 ^ log2_ceil m + sharenum := by
    rw [packedValue]; ring
  have hE1 : ((packedValue k m sharenum padlen *
      2 ^ (nb * 8 - (8 + log2_ceil m + log2_ceil k + log2_ceil m))) >>>
      (nb * 8 - 8)) &&& 255 = m - 1 := by
    rw [show nb * 8 - 8 =
        (nb * 8 - (8 + log2_ceil m + log2_ceil k + log2_ceil m)) +
          (log2_ceil m + (log2_ceil k + log2_ceil m)) by omega]
    rw [mul_pow_shiftRight_add, hdec1, add_mul_div_pow hr1]
    rw [show (255 : Nat) = 2 ^ 8 - 1 by norm_num,
      Nat.and_pow_two_sub_one_eq_mod, Nat.mod_eq_of_lt (by omega)]
  have hE2 : (((packedValue k m sharenum padlen *
      2 ^ (nb * 8 - (8 + log2_ceil m + log2_ceil k + log2_ceil m))) >>>
      (nb * 8 - 8 - log2_ceil m)) &&& ((1 <<< log2_ceil m) - 1)) % 256 =
      k - 1 := by
    rw [show nb * 8 - 8 - log2_ceil m =
        (nb * 8 - (8 + log2_ceil m + log2_ceil k + log2_ceil m)) +
          (log2_ceil k + log2_ceil m) by omega]
    rw [mul_pow_shiftRight_add, hdec2,
      add_mul_div_pow (pack_lt hC hD), and_one_shiftLeft_sub_one,
      add_mul_mod_pow hB, Nat.mod_eq_of_lt (by omega)]
  have hE3 : ((packedValue k m sharenum padlen *
      2 ^ (nb * 8 - (8 + log2_ceil m + log2_ceil k + log2_ceil m))) >>>
      (log2_ceil m +
        (nb * 8 - (8 + log2_ceil m + log2_ceil k + log2_ceil m)))) &&&
      ((1 <<< log2_ceil k) - 1) = padlen := by
    rw [show log2_ceil m +
        (nb * 8 - (8 + log2_ceil m + log2_ceil k + log2_ceil m)) =
        (nb * 8 - (8 + log2_ceil m + log2_ceil k + log2_ceil m)) +
          log2_ceil m by omega]
    rw [mul_pow_shiftRight_add, hdec3, add_mul_div_pow hD,
      and_one_shiftLeft_sub_one]
    rw [show (m - 1) * 2 ^ (log2_ceil m + log2_ceil k) +
        (k - 1) * 2 ^ log2_ceil k + padlen =
        ((m - 1) * 2 ^ log2_ceil m + (k - 1)) * 2 ^ log2_ceil k + padlen
        by ring]
    rw [add_mul_mod_pow hC]
  have hE4 : (((packedValue k m sharenum padlen *
      2 ^ (nb * 8 - (8 + log2_ceil m + log2_ceil k + log2_ceil m))) >>>
      (nb * 8 - (8 + log2_ceil m + log2_ceil k + log2_ceil m))) &&&
      ((1 <<< log2_ceil m) - 1)) % 256 = sharenum := by
    rw [mul_pow_shiftRight_self, hdec3, and_one_shiftLeft_sub_one,
      add_mul_mod_pow hD, Nat.mod_eq_of_lt (by omega)]
  simp only [ZfecHeader.decode]
  rw [hlen, hval]
  rw [if_neg (by simp only [Bool.or_eq_true, decide_eq_true_eq]; omega)]
  rw [hE1]
  rw [if_neg (by omega)]
  rw [show m - 1 + 1 = m by omega]
  rw [if_neg (by omega)]
  rw [hE2]
  rw [if_neg (by omega)]
  rw [show k - 1 + 1 = k by omega]
  rw [if_neg (by omega)]
  rw [if_neg (show ¬(8 + log2_ceil m + log2_ceil k + log2_ceil m + 7) / 8 ≠ nb
    by omega)]
  rw [hE3, hE4]
  rw [if_neg (by omega)]

/-- The or-of-shifted-fields value computed by ZfecHeader::encode equals the
packed value. -/
theorem encode_value_eq (k m sharenum padlen : Nat)
    (hk : 1 ≤ k) (hkm : k ≤ m) (hm : m ≤ 255) (hs : sharenum < m)
    (hp : padlen < 2 ^ log2_ceil k) :
    (m - 1) <<< (8 + log2_ceil m + log2_ceil k + log2_ceil m - 8) |||
      (k - 1) <<<
        (8 + log2_ceil m + log2_ceil k + log2_ceil m - 8 - log2_ceil m) |||
      padlen <<<
        (8 + log2_ceil m + log2_ceil k + log2_ceil m - 8 - log2_ceil m -
          log2_ceil k) |||
      sharenum = packedValue k m sharenum padlen := by
  have hA : m - 1 < 2 ^ log2_ceil m := sub_one_lt_pow m
  have hB : k - 1 < 2 ^ log2_ceil m := by omega
  have hD : sharenum < 2 ^ log2_ceil m := by omega
  rw [show 8 + log2_ceil m + log2_ceil k + log2_ceil m - 8 - log2_ceil m -
      log2_ceil k = log2_ceil m by omega]
  rw [show 8 + log2_ceil m + log2_ceil k + log2_ceil m - 8 - log2_ceil m =
      log2_ceil k + log2_ceil m by omega]
  rw [show 8 + log2_ceil m + log2_ceil k + log2_ceil m - 8 =
      log2_ceil m + (log2_ceil k + log2_ceil m) by omega]
  rw [Nat.shiftLeft_eq, Nat.shiftLeft_eq, Nat.shiftLeft_eq]
  have hb1 : (k - 1) * 2 ^ (log2_ceil k + log2_ceil m) <
      2 ^ (log2_ceil m + (log2_ceil k + log2_ceil m)) := by
    have h1 : (k - 1) * 2 ^ (log2_ceil k + log2_ceil m) <
        2 ^ log2_ceil m * 2 ^ (log2_ceil k + log2_ceil m) :=
      mul_lt_mul_of_pos_right hB (Nat.pos_pow_of_pos _ (by norm_num))
    rw [← pow_add] at h1
    exact h1
  rw [mul_pow_lor_eq_add hb1]
  rw [show (m - 1) * 2 ^ (log2_ceil m + (log2_ceil k + log2_ceil m)) +
      (k - 1) * 2 ^ (log2_ceil k + log2_ceil m) =
      ((m - 1) * 2 ^ log2_ceil m + (k - 1)) * 2 ^ (log2_ceil k + log2_ceil m)
      by ring]
  have hb2 : padlen * 2 ^ log2_ceil m < 2 ^ (log2_ceil k + log2_ceil m) := by
    have h1 : padlen * 2 ^ log2_ceil m <
        2 ^ log2_ceil k * 2 ^ log2_ceil m :=
      mul_lt_mul_of_pos_right hp (Nat.pos_pow_of_pos _ (by norm_num))
    rw [← pow_add] at h1
    exact h1
  rw [mul_pow_lor_eq_add hb2]
  rw [show ((m - 1) * 2 ^ log2_ceil m + (k - 1)) *
      2 ^ (log2_ceil k + log2_ceil m) + padlen * 2 ^ log2_ceil m =
      ((m - 1) * 2 ^ (log2_ceil m + log2_ceil k) +
        (k - 1) * 2 ^ log2_ceil k + padlen) * 2 ^ log2_ceil m by ring]
  rw [mul_pow_lor_eq_add hD]
  rw [packedValue]
  ring

/-- The packed value fits in totalBits bits. -/
theorem packedValue_lt (k m sharenum padlen : Nat)
    (hk : 1 ≤ k) (hkm : k ≤ m) (hm : m ≤ 255) (hs : sharenum < m)
    (hp : padlen < 2 ^ log2_ceil k) :
    packedValue k m sharenum padlen < 2 ^ totalBits k m := by
  have hA : m - 1 < 2 ^ log2_ceil m := sub_one_lt_pow m
  have hB : k - 1 < 2 ^ log2_ceil m := by omega
  have hD : sharenum < 2 ^ log2_ceil m := by omega
  have h8 : m - 1 < 2 ^ 8 := by
    have h256 : (2 : Nat) ^ 8 = 256 := by norm_num
    omega
  have hdec1 : packedValue k m sharenum padlen =
      (m - 1) * 2 ^ (log2_ceil m + (log2_ceil k + log2_ceil m)) +
        ((k - 1) * 2 ^ (log2_ceil k + log2_ceil m) +
          (padlen * 2 ^ log2_ceil m + sharenum)) := by
    rw [packedValue]; ring
  have hlt := pack_lt h8 (pack_lt hB (pack_lt hp hD))
  rw [← hdec1] at hlt
  have hexp : 8 + (log2_ceil m + (log2_ceil k + log2_ceil m)) =
      totalBits k m := by
    simp only [totalBits]; omega
  rw [hexp] at hlt
  exact hlt

/-- C1 (amended).  For parameters with 1 ≤ k ≤ m ≤ 255, sharenum < m,
padlen < 2^log2_ceil k, and a total bit count that is 16, in 17..24, or 32,
ZfecHeader::encode succeeds, emits ceil(total_bits/8) ∈ {2,3,4} bytes holding
the packed value left-aligned at the most significant bit (the big-endian
byte value is packedValue shifted up by the unused low bits), and
ZfecHeader::decode returns exactly the original parameters.  Other in-range
parameters fail the round trip: see the counterexample theorem. -/
theorem c1_header_roundtrip (k m sharenum padlen : Nat)
    (hk : 1 ≤ k) (hkm : k ≤ m) (hm : m ≤ 255) (hs : sharenum < m)
    (hp : padlen < 2 ^ log2_ceil k)
    (htot : totalBits k m = 16 ∨ (17 ≤ totalBits k m ∧ totalBits k m ≤ 24) ∨
      totalBits k m = 32) :
    ∃ bs, ZfecHeader.encode ⟨k, m, sharenum, padlen⟩ = some bs ∧
      bs.length = (totalBits k m + 7) / 8 ∧
      (2 ≤ bs.length ∧ bs.length ≤ 4) ∧
      fromBytesBE bs =
        packedValue k m sharenum padlen *
          2 ^ (bs.length * 8 - totalBits k m) ∧
      ZfecHeader.decode bs = .ok ⟨k, m, sharenum, padlen⟩ := by
  have hV := encode_value_eq k m sharenum padlen hk hkm hm hs hp
  have hPlt := packedValue_lt k m sharenum padlen hk hkm hm hs hp
  rcases htot with h16 | ⟨h17, h24⟩ | h32
  · -- two-byte header, total bits exactly 16
    have hT : 8 + log2_ceil m + log2_ceil k + log2_ceil m = 16 := by
      simp only [totalBits] at h16; exact h16
    have hP16 : packedValue k m sharenum padlen < 2 ^ 16 := by
      rw [h16] at hPlt; exact hPlt
    refine ⟨toBytesBE2 (packedValue k m sharenum padlen),
      ?_, ?_, ⟨?_, ?_⟩, ?_, ?_⟩
    · simp only [ZfecHeader.encode]
      rw [hV]
      rw [show (8 + log2_ceil m + log2_ceil k + log2_ceil m + 7) / 8 = 2
        by omega]
      rw [Nat.mod_eq_of_lt hP16]
    · rw [show (toBytesBE2 (packedValue k m sharenum padlen)).length = 2
        from rfl, h16]
    · rw [show (toBytesBE2 (packedValue k m sharenum padlen)).length = 2
        from rfl]
    · rw [show (toBytesBE2 (packedValue k m sharenum padlen)).length = 2
        from rfl]
      norm_num
    · rw [fromBytesBE_toBytesBE2 _ hP16,
        show (toBytesBE2 (packedValue k m sharenum padlen)).length = 2
          from rfl, h16]
      norm_num
    · exact decode_packed k m sharenum padlen 2 _ hk hkm hm hs hp
        (by rw [h16]) (by norm_num) (by norm_num) rfl
        (by rw [fromBytesBE_toBytesBE2 _ hP16, h16]; norm_num)
  · -- three-byte header, value left-shifted to the MSB
    have hT17 : 17 ≤ 8 + log2_ceil m + log2_ceil k + log2_ceil m := by
      simp only [totalBits] at h17; exact h17
    have hT24 : 8 + log2_ceil m + log2_ceil k + log2_ceil m ≤ 24 := by
      simp only [totalBits] at h24; exact h24
    have hPlt' : packedValue k m sharenum padlen <
        2 ^ (8 + log2_ceil m + log2_ceil k + log2_ceil m) := hPlt
    have hP24 : packedValue k m sharenum padlen *
        2 ^ (3 * 8 - (8 + log2_ceil m + log2_ceil k + log2_ceil m)) <
        2 ^ 24 := by
      have h1 := mul_lt_mul_of_pos_right hPlt'
        (Nat.pos_pow_of_pos
          (3 * 8 - (8 + log2_ceil m + log2_ceil k + log2_ceil m))
          (by norm_num : (0 : Nat) < 2))
      rw [← pow_add] at h1
      rw [show 8 + log2_ceil m + log2_ceil k + log2_ceil m +
          (3 * 8 - (8 + log2_ceil m + log2_ceil k + log2_ceil m)) = 24
        by omega] at h1
      exact h1
    have hP32 : packedValue k m sharenum padlen *
        2 ^ (3 * 8 - (8 + log2_ceil m + log2_ceil k + log2_ceil m)) <
        2 ^ 32 :=
      lt_of_lt_of_le hP24 (Nat.pow_le_pow_right (by norm_num) (by norm_num))
    refine ⟨toBytesBE3 (packedValue k m sharenum padlen *
      2 ^ (3 * 8 - (8 + log2_ceil m + log2_ceil k + log2_ceil m))),
      ?_, ?_, ⟨?_, ?_⟩, ?_, ?_⟩
    · simp only [ZfecHeader.encode]
      rw [hV]
      rw [show (8 + log2_ceil m + log2_ceil k + log2_ceil m + 7) / 8 = 3
        by omega]
      rw [Nat.shiftLeft_eq]
      rw [Nat.mod_eq_of_lt hP32]
    · rw [show (toBytesBE3 (packedValue k m sharenum padlen *
        2 ^ (3 * 8 - (8 + log2_ceil m + log2_ceil k + log2_ceil m)))).length
          = 3 from rfl]
      simp only [totalBits]
      omega
    · rw [show (toBytesBE3 (packedValue k m sharenum padlen *
        2 ^ (3 * 8 - (8 + log2_ceil m + log2_ceil k + log2_ceil m)))).length
          = 3 from rfl]
      norm_num
    · rw [show (toBytesBE3 (packedValue k m sharenum padlen *
        2 ^ (3 * 8 - (8 + log2_ceil m + log2_ceil k + log2_ceil m)))).length
          = 3 from rfl]
      norm_num
    · rw [fromBytesBE_toBytesBE3 _ hP24,
        show (toBytesBE3 (packedValue k m sharenum padlen *
          2 ^ (3 * 8 - (8 + log2_ceil m + log2_ceil k + log2_ceil m)))).length
            = 3 from rfl]
      simp only [totalBits]
    · exact decode_packed k m sharenum padlen 3 _ hk hkm hm hs hp
        (by simp only [totalBits]; omega) (by norm_num) (by norm_num) rfl
        (by rw [fromBytesBE_toBytesBE3 _ hP24]; simp only [totalBits])
  · -- four-byte header, total bits exactly 32
    have hT : 8 + log2_ceil m + log2_ceil k + log2_ceil m = 32 := by
      simp only [totalBits] at h32; exact h32
    have hP32 : packedValue k m sharenum padlen < 2 ^ 32 := by
      rw [h32] at hPlt; exact hPlt
    refine ⟨toBytesBE4 (packedValue k m sharenum padlen),
      ?_, ?_, ⟨?_, ?_⟩, ?_, ?_⟩
    · simp only [ZfecHeader.encode]
      rw [hV]
      rw [show (8 + log2_ceil m + log2_ceil k + log2_ceil m + 7) / 8 = 4
        by omega]
      rw [Nat.mod_eq_of_lt hP32]
    · rw [show (toBytesBE4 (packedValue k m sharenum padlen)).length = 4
        from rfl, h32]
    · rw [show (toBytesBE4 (packedValue k m sharenum padlen)).length = 4
        from rfl]
      norm_num
    · rw [show (toBytesBE4 (packedValue k m sharenum padlen)).length = 4
        from rfl]
    · rw [fromBytesBE_toBytesBE4 _ hP32,
        show (toBytesBE4 (packedValue k m sharenum padlen)).length = 4
          from rfl, h32]
      norm_num
    · exact decode_packed k m sharenum padlen 4 _ hk hkm hm hs hp
        (by rw [h32]) (by norm_num) (by norm_num) rfl
        (by rw [fromBytesBE_toBytesBE4 _ hP32, h32]; norm_num)

/-- C1 counterexample to the unrestricted round-trip.  With k = 2, m = 3
(total bits 13, a 2-byte header) all hypotheses of the claim hold, yet
decode rejects encode's output: the low-aligned 2-byte arm stores the value
without left-shifting, decode reads m−1 from the top byte as 0 and then
fails its expected-size check.  With k = m = 1 encode reaches the
unreachable! arm (modelled as none): it does not terminate normally. -/
theorem c1_header_roundtrip_counterexample :
    ZfecHeader.encode ⟨2, 3, 0, 0⟩ = some [0, 72] ∧
    ZfecHeader.decode [0, 72] = .error .invalidHeader ∧
    ZfecHeader.encode ⟨1, 1, 0, 0⟩ = none := by
  have hb0 : bitsCount 0 = 0 := by rw [bitsCount]; norm_num
  have hb1 : bitsCount 1 = 1 := by rw [bitsCount]; norm_num [hb0]
  have hb2 : bitsCount 2 = 2 := by rw [bitsCount]; norm_num [hb1]
  have hl2 : log2_ceil 2 = 1 := by rw [log2_ceil]; norm_num [hb1]
  have hl3 : log2_ceil 3 = 2 := by rw [log2_ceil]; norm_num [hb2]
  refine ⟨?_, ?_, ?_⟩
  · simp only [ZfecHeader.encode]
    rw [hl3, hl2]
    decide
  · decide
  · decide

/-- Witness for c1_header_roundtrip at k = 3, m = 5, sharenum = 2,
padlen = 2 (total bits 16, a 2-byte header). -/
theorem c1_header_roundtrip_witness :
    ∃ bs, ZfecHeader.encode ⟨3, 5, 2, 2⟩ = some bs ∧
      bs.length = (totalBits 3 5 + 7) / 8 ∧
      (2 ≤ bs.length ∧ bs.length ≤ 4) ∧
      fromBytesBE bs =
        packedValue 3 5 2 2 * 2 ^ (bs.length * 8 - totalBits 3 5) ∧
      ZfecHeader.decode bs = .ok ⟨3, 5, 2, 2⟩ :=
  c1_header_roundtrip 3 5 2 2 (by norm_num) (by norm_num) (by norm_num)
    (by norm_num)
    (by
      have hb0 : bitsCount 0 = 0 := by rw [bitsCount]; norm_num
      have hb1 : bitsCount 1 = 1 := by rw [bitsCount]; norm_num [hb0]
      have hb2 : bitsCount 2 = 2 := by rw [bitsCount]; norm_num [hb1]
      have hl3 : log2_ceil 3 = 2 := by rw [log2_ceil]; norm_num [hb2]
      rw [hl3]; norm_num)
    (Or.inl (by
      have hb0 : bitsCount 0 = 0 := by rw [bitsCount]; norm_num
      have hb1 : bitsCount 1 = 1 := by rw [bitsCount]; norm_num [hb0]
      have hb2 : bitsCount 2 = 2 := by rw [bitsCount]; norm_num [hb1]
      have hb4 : bitsCount 4 = 3 := by rw [bitsCount]; norm_num [hb2]
      have hl3 : log2_ceil 3 = 2 := by rw [log2_ceil]; norm_num [hb2]
      have hl5 : log2_ceil 5 = 3 := by rw [log2_ceil]; norm_num [hb4]
      rw [totalBits, hl5, hl3]))

end Ectar